import Mathlib

/-!
Shallow embedding of the PyNonogram solver (src/nonogram.py, src/solver.py).

Conventions of the embedding:
* a Python string of cells is a `List Char` over the alphabet '1' (filled),
  '0' (unfilled), 'x' (unknown);
* Python `int` is `Int`; `len`/indices of concrete containers are `Nat`;
* Python exceptions are modelled with `Except Err`; `Err.unsolvable` is
  `UnsolvableError`, `Err.other` is any other exception (IndexError,
  ValueError, the defensive `raise Exception`);
* the iteration order of a Python `set` of strings (used by
  `Nonogram.update_known_solution_sets` through `list(set(..) - ..)`)
  is unspecified in the source (str hashes are randomized per process), so
  the operations that depend on it take an explicit order parameter
  `shuffle`: the list handed to `shuffle` holds the distinct surviving
  solutions in first-occurrence order, and `shuffle` rearranges it the way
  the hash table would.
-/

inductive Err where
  | unsolvable
  | other
deriving Repr, DecidableEq

/-- Python `s[0:i] + c + s[i+1:]` on a string `s` (slices clamp out of range). -/
def strSet (s : List Char) (i : Nat) (c : Char) : List Char :=
  s.take i ++ [c] ++ s.drop (i + 1)

/-- Python `l[i] = c` on a list: negative indices wrap once, out-of-range
raises IndexError. -/
def pySet (l : List Char) (i : Int) (c : Char) : Except Err (List Char) :=
  let n : Int := l.length
  let j : Int := if i < 0 then i + n else i
  if 0 ≤ j ∧ j < n then .ok (l.set j.toNat c) else .error .other

/-- Python `range(lo, hi)` over ints. -/
def rangeInt (lo hi : Int) : List Int :=
  (List.range (hi - lo).toNat).map (fun k : Nat => lo + (k : Int))

/-- Python `math.comb`: raises ValueError on negative arguments,
returns 0 when k > n. -/
def pyComb (n k : Int) : Except Err Int :=
  if n < 0 ∨ k < 0 then .error .other else .ok (Nat.choose n.toNat k.toNat)

/-- Python `max` over a clue (the source only calls it on nonempty clues,
where this agrees with `max`). -/
def maxClue (clue : List Nat) : Nat := clue.foldl max 0

/-- `length - (sum(clue) + len(clue) - 1)` from `Sequence.get_initial_value`. -/
def extraSpace (clue : List Nat) (length : Nat) : Int :=
  (length : Int) - ((clue.sum : Int) + (clue.length : Int) - 1)

/-- The write loop body of `Sequence.get_initial_value`: set every index of
`idxs` to '1' with Python list-index semantics. -/
def writeOnes (v : List Char) (idxs : List Int) : Except Err (List Char) :=
  idxs.foldlM (fun acc i => pySet acc i '1') v

/-- One iteration of the `for i, section in enumerate(self.clue)` loop of
`Sequence.get_initial_value`: `p = (i, section)`. -/
def fillSection (clue : List Nat) (es : Int) (v : List Char) (p : Nat × Nat) :
    Except Err (List Char) :=
  if (p.2 : Int) ≤ es then pure v
  else
    let startFill : Int := ((clue.take p.1).sum : Int) + (p.1 : Int) + es
    let endFill : Int := startFill + (p.2 : Int) - es
    writeOnes v (rangeInt startFill endFill)

/-- `Sequence.get_initial_value` (src/nonogram.py lines 28-43). -/
def get_initial_value (clue : List Nat) (length : Nat) : Except Err (List Char) :=
  let es := extraSpace clue length
  if clue = [] then .ok (List.replicate length '0')
  else if (maxClue clue : Int) ≤ es then .ok (List.replicate length 'x')
  else
    clue.enum.foldlM (fillSection clue es) (List.replicate length 'x')

/-- `Sequence.get_possible_solutions` (src/nonogram.py lines 52-62),
returning the list it appends to `solutions`. -/
def get_possible_solutions (clue : List Nat) (length : Nat) (prev : List Char) :
    List (List Char) :=
  match clue with
  | [] => [prev ++ List.replicate length '0']
  | c0 :: rest =>
      let reserved := rest.sum + rest.length
      let bound : Int := (length : Int) - (reserved : Int) - (c0 : Int) + 1
      (List.range bound.toNat).flatMap (fun i =>
        let sep : Nat := if rest.isEmpty then 0 else 1
        let newLength := length - (c0 + i + sep)
        let newPrev := prev ++ List.replicate i '0' ++ List.replicate c0 '1'
          ++ List.replicate sep '0'
        get_possible_solutions rest newLength newPrev)

/-- `Sequence.get_possible_solution_count` (src/nonogram.py lines 64-71). -/
def get_possible_solution_count (clue : List Nat) (length : Nat) : Except Err Int :=
  if clue = [] then .ok 1
  else
    pyComb ((length : Int) - ((clue.length : Int) - 1)
      - ((clue.sum : Int) - (clue.length : Int))) (clue.length : Int)

def isGapChar (c : Char) : Bool := c == '0' || c == 'x'

def isRunChar (c : Char) : Bool := c == '1' || c == 'x'

/-- Matcher for the body of `Sequence.get_regex`'s pattern starting exactly
at the first run: `[1x]{r1}` then, between consecutive runs, `[0x]+`, and
after the last run `[0x]*$`.  The `[0x]+` separators are matched by trying
every positive number `k+1` of gap characters.  `matchFrom [] s` is the
empty-clue pattern `^[0x]*?[0x]*$`. -/
def matchFrom : List Nat → List Char → Bool
  | [], s => s.all isGapChar
  | r :: rest, s =>
      decide (r ≤ s.length) && ((s.take r).all isRunChar) &&
      (if rest.isEmpty then (s.drop r).all isGapChar
       else
         let t := s.drop r
         (List.range t.length).any (fun k =>
           (t.take (k + 1)).all isGapChar && matchFrom rest (t.drop (k + 1))))

/-- `re.match(seq.regex, s)` where `seq.regex` is built by
`Sequence.get_regex` from `clue`: the pattern
`^[0x]*?[1x]{r1}[0x]+...[1x]{rk}[0x]*$`.  The leading `[0x]*?` is handled by
trying every number of leading gap characters (a match exists iff one of
these parses exists; laziness of `*?` does not affect match existence). -/
def reMatch (clue : List Nat) (s : List Char) : Bool :=
  (List.range (s.length + 1)).any (fun k =>
    (s.take k).all isGapChar && matchFrom clue (s.drop k))

/-- The `Sequence` class (src/nonogram.py lines 4-20); `solutions = none`
models the attribute being absent (the count exceeded the cap).  The
compiled `regex` attribute is not stored: it is a pure function of `clue`
(`reMatch clue`). -/
structure Sequence where
  length : Nat
  clue : List Nat
  value : List Char
  solutions_possible : Int
  solutions : Option (List (List Char))
deriving Repr, DecidableEq

/-- `Sequence.__init__`: the write loop of `get_initial_value` and
`math.comb` can raise, in that order. -/
def mkSequence (clue : List Nat) (length : Nat) (maxSolutionsToFind : Int) :
    Except Err Sequence := do
  let value ← get_initial_value clue length
  let sp ← get_possible_solution_count clue length
  let sols := if sp ≤ maxSolutionsToFind then
    some (get_possible_solutions clue length []) else none
  pure ⟨length, clue, value, sp, sols⟩

inductive LineType where
  | row
  | col
deriving Repr, DecidableEq

/-- The `Nonogram` class (src/nonogram.py lines 73-96).  The two
sub-dictionaries of `sequences` (keys `0..n-1` in insertion order) are the
lists `rows` and `cols`; the Python `set` `unsolved` is kept as a
duplicate-free list in insertion order. -/
structure Nonogram where
  max_solutions_to_find : Int
  width : Nat
  height : Nat
  rows : List Sequence
  cols : List Sequence
  known_solution_sets : List (LineType × Nat × Int)
  unsolved : List (Nat × Nat)
deriving Repr, DecidableEq

def dummySeq : Sequence := ⟨0, [], [], 0, none⟩

def getSeq (n : Nonogram) (lt : LineType) (idx : Nat) : Sequence :=
  match lt with
  | .row => n.rows.getD idx dummySeq
  | .col => n.cols.getD idx dummySeq

def setSeq (n : Nonogram) (lt : LineType) (idx : Nat) (s : Sequence) : Nonogram :=
  match lt with
  | .row => { n with rows := n.rows.set idx s }
  | .col => { n with cols := n.cols.set idx s }

def setSeqValue (n : Nonogram) (lt : LineType) (idx : Nat) (v : List Char) : Nonogram :=
  setSeq n lt idx { getSeq n lt idx with value := v }

/-- `set.add` on the unsolved set. -/
def pySetAdd (l : List (Nat × Nat)) (p : Nat × Nat) : List (Nat × Nat) :=
  if p ∈ l then l else l ++ [p]

/-- `Nonogram.update_unsolved` (src/nonogram.py lines 146-151). -/
def update_unsolved (n : Nonogram) (pos : Nat × Nat) (newValue : Char) : Nonogram :=
  if newValue = 'x' then { n with unsolved := pySetAdd n.unsolved pos }
  else if pos ∈ n.unsolved then { n with unsolved := n.unsolved.erase pos }
  else n

/-- `Nonogram.update_at_pos` (src/nonogram.py lines 153-163). -/
def update_at_pos (n : Nonogram) (pos : Nat × Nat) (newValue : Char)
    (ignored : Option LineType) : Nonogram :=
  let oldRow := (getSeq n .row pos.1).value
  let oldCol := (getSeq n .col pos.2).value
  let n1 := update_unsolved n pos newValue
  let n2 := if ignored = some .col ∨ ignored = none then
    setSeqValue n1 .row pos.1 (strSet oldRow pos.2 newValue) else n1
  if ignored = some .row ∨ ignored = none then
    setSeqValue n2 .col pos.2 (strSet oldCol pos.1 newValue) else n2

/-- `Nonogram.update_sequences` (src/nonogram.py lines 165-169).  In every
reachable call `pos.2 < newRow.length`, so the `getD` default is never
taken. -/
def update_sequences (n : Nonogram) (pos : Nat × Nat) (newRow newCol : List Char) :
    Nonogram :=
  let n1 := update_unsolved n pos (newRow.getD pos.2 'x')
  let n2 := setSeqValue n1 .row pos.1 newRow
  setSeqValue n2 .col pos.2 newCol

/-- `Nonogram.update_single_sequence` (src/nonogram.py lines 171-176).  In
every reachable call `newValue.length` equals the stored line length, so the
`getD` default is never taken. -/
def update_single_sequence (n : Nonogram) (lt : LineType) (idx : Nat)
    (newValue : List Char) : Nonogram :=
  let n1 := setSeqValue n lt idx newValue
  (List.range (getSeq n1 lt idx).length).foldl
    (fun nn i =>
      let pos : Nat × Nat := match lt with | .row => (idx, i) | .col => (i, idx)
      update_at_pos nn pos (newValue.getD i 'x') (some lt))
    n1

/-- `Nonogram.get_unsolved` (src/nonogram.py lines 137-144), producing the
unknown coordinates in row-major order. -/
def get_unsolved (n : Nonogram) : List (Nat × Nat) :=
  n.rows.enum.flatMap (fun p =>
    p.2.value.enum.filterMap (fun q =>
      if q.2 = 'x' then some (p.1, q.1) else none))

/-- `Nonogram.reconcile_sequences` (src/nonogram.py lines 112-120).  The
loop iterates over the value string fetched once at loop entry (Python
strings are immutable), while the opposite lines are read live. -/
def reconcile_sequences (n : Nonogram) (lt : LineType) (idx : Nat) : Nonogram :=
  let opp : LineType := match lt with | .row => .col | .col => .row
  let v := (getSeq n lt idx).value
  v.enum.foldl
    (fun nn p =>
      let i := p.1
      let cellValue := p.2
      let oppCount := match opp with | .row => nn.rows.length | .col => nn.cols.length
      if i < oppCount ∧ cellValue ≠ ((getSeq nn opp i).value.getD idx 'x') then
        let pos : Nat × Nat := match lt with | .row => (idx, i) | .col => (i, idx)
        let newValue := if cellValue ≠ 'x' then cellValue
          else (getSeq nn opp i).value.getD idx 'x'
        let ignoredSeq := if cellValue ≠ 'x' then lt else opp
        update_at_pos nn pos newValue (some ignoredSeq)
      else nn)
    n

/-- The iteration order of `list(set(..) - ..)` in
`Nonogram.update_known_solution_sets`: the argument is the distinct
surviving solutions in first-occurrence order and the result is the same
multiset in hash-table order. -/
abbrev Shuffle := List (List Char) → List (List Char)

/-- `solution in solutions_to_remove` test of
`Nonogram.update_known_solution_sets`: some non-Unknown cell of `value`
disagrees with the solution (the Python loop indexes `value` by the
solution's positions; lengths agree in every reachable state). -/
def hasConflict (value sol : List Char) : Bool :=
  (value.zip sol).any (fun p => !(p.1 == 'x' || p.1 == p.2))

/-- The per-line body of `Nonogram.update_known_solution_sets`: prune the
stored solutions against the current value, returning the updated sequence. -/
def prune_line (shuffle : Shuffle) (seq : Sequence) : Sequence :=
  let sols := seq.solutions.getD []
  let removedCount := ((sols.filter (fun s => hasConflict seq.value s)).dedup).length
  let newSols := shuffle ((sols.dedup).filter (fun s => !(hasConflict seq.value s)))
  { seq with solutions := some newSols,
             solutions_possible := seq.solutions_possible - removedCount }

/-- Stable insertion (after existing entries with a key `≤`) used to model
Python's stable `sorted(..., key=lambda e: e[2])`. -/
def insertByCount (e : LineType × Nat × Int) :
    List (LineType × Nat × Int) → List (LineType × Nat × Int)
  | [] => [e]
  | f :: t => if f.2.2 ≤ e.2.2 then f :: insertByCount e t else e :: f :: t

def sortByCount (l : List (LineType × Nat × Int)) : List (LineType × Nat × Int) :=
  l.foldl (fun acc e => insertByCount e acc) []

/-- One iteration of the `for line_type, index, _ in self.known_solution_sets`
loop of `Nonogram.update_known_solution_sets`: prune the tracked line and
append its updated count to the new list. -/
def kssStep (shuffle : Shuffle) (acc : Nonogram × List (LineType × Nat × Int))
    (e : LineType × Nat × Int) : Nonogram × List (LineType × Nat × Int) :=
  let lt := e.1
  let idx := e.2.1
  let seq' := prune_line shuffle (getSeq acc.1 lt idx)
  (setSeq acc.1 lt idx seq', acc.2 ++ [(lt, idx, seq'.solutions_possible)])

/-- `Nonogram.update_known_solution_sets` (src/nonogram.py lines 122-135). -/
def update_known_solution_sets (shuffle : Shuffle) (n : Nonogram) : Nonogram :=
  let step := n.known_solution_sets.foldl (kssStep shuffle) (n, [])
  { step.1 with known_solution_sets := sortByCount step.2 }

/-- Appends `[line_type, j, solutions_possible]` to `known_solution_sets`
when `1 < solutions_possible <= max_solutions_to_find` (src/nonogram.py
lines 94-95). -/
def trackIf (n : Nonogram) (lt : LineType) (idx : Nat) (sp : Int) : Nonogram :=
  if 1 < sp ∧ sp ≤ n.max_solutions_to_find then
    { n with known_solution_sets := n.known_solution_sets ++ [(lt, idx, sp)] }
  else n

/-- `Nonogram.__init__` (src/nonogram.py lines 82-97).  `clues.1` is the
list of column clues (`clues[0]`), `clues.2` the row clues (`clues[1]`);
the columns are built and reconciled first, then the rows. -/
def mkNonogram (shuffle : Shuffle) (clues : List (List Nat) × List (List Nat)) :
    Except Err Nonogram := do
  let width := clues.1.length
  let height := clues.2.length
  let n0 : Nonogram := ⟨50, width, height, [], [], [], []⟩
  let n1 ← clues.1.foldlM
    (fun (n : Nonogram) clue => do
      let s ← mkSequence clue height n.max_solutions_to_find
      let idx := n.cols.length
      let n := { n with cols := n.cols ++ [s] }
      let n := reconcile_sequences n .col idx
      pure (trackIf n .col idx (getSeq n .col idx).solutions_possible))
    n0
  let n2 ← clues.2.foldlM
    (fun (n : Nonogram) clue => do
      let s ← mkSequence clue width n.max_solutions_to_find
      let idx := n.rows.length
      let n := { n with rows := n.rows ++ [s] }
      let n := reconcile_sequences n .row idx
      pure (trackIf n .row idx (getSeq n .row idx).solutions_possible))
    n1
  let n3 := { n2 with unsolved := get_unsolved n2 }
  pure (update_known_solution_sets shuffle n3)

/-- `Nonogram.get_grid` (src/nonogram.py lines 105-110).  Python converts
the characters '1'/'0' to the ints 1/0 and keeps "x"; the conversion is a
bijection on cell states, so the grid is kept as the row value strings. -/
def get_grid (n : Nonogram) : List (List Char) :=
  n.rows.map (fun r => r.value)

/-- The `Guess` class hierarchy (src/solver.py lines 7-37): `CellGuess`
and `SequenceGuess`, each with its `dependent_cells` undo log. -/
inductive Guess where
  | cell (pos : Nat × Nat) (dependent : List (Nat × Nat))
  | seqG (lt : LineType) (idx : Nat) (newValue oldValue : List Char)
      (dependent : List (Nat × Nat))
deriving Repr, DecidableEq

/-- `guesses[-1].dependent_cells.append(pos)`. -/
def addDependent (g : Guess) (pos : Nat × Nat) : Guess :=
  match g with
  | .cell p dep => .cell p (dep ++ [pos])
  | .seqG lt idx nv ov dep => .seqG lt idx nv ov (dep ++ [pos])

def dependentOf (g : Guess) : List (Nat × Nat) :=
  match g with
  | .cell _ dep => dep
  | .seqG _ _ _ _ dep => dep

/-- The guess stack: Python appends/pops at the list's end; here the head
of the list is the most recent guess. -/
abbrev GuessStack := List Guess

/-- `(line_type, index) not in guesses` via `SequenceGuess.__eq__`
(a `CellGuess` never compares equal to a tuple). -/
def guessedLine (gs : GuessStack) (lt : LineType) (idx : Nat) : Bool :=
  gs.any (fun g =>
    match g with
    | .seqG lt' idx' _ _ _ => lt' == lt && idx' == idx
    | .cell _ _ => false)

/-- Result of `Solver.check_regex` (src/solver.py lines 42-60): the strings
"either"/"error" or the updated pair of sequence values. -/
inductive CheckResult where
  | either
  | unsat
  | updated (newRow newCol : List Char)
deriving Repr, DecidableEq

/-- `Solver.check_regex` (src/solver.py lines 42-60). -/
def check_regex (n : Nonogram) (pos : Nat × Nat) : CheckResult :=
  let currentRow := getSeq n .row pos.1
  let currentCol := getSeq n .col pos.2
  let check0Row := strSet currentRow.value pos.2 '0'
  let check0Col := strSet currentCol.value pos.1 '0'
  let check1Row := strSet currentRow.value pos.2 '1'
  let check1Col := strSet currentCol.value pos.1 '1'
  let validWith0 := reMatch currentRow.clue check0Row && reMatch currentCol.clue check0Col
  let validWith1 := reMatch currentRow.clue check1Row && reMatch currentCol.clue check1Col
  if validWith0 && validWith1 then .either
  else if !validWith0 && !validWith1 then .unsat
  else if validWith0 then .updated check0Row check0Col
  else .updated check1Row check1Col

/-- The `for pos in unsolved` loop of `Solver.deduce` (src/solver.py lines
62-81) over the snapshot of the unsolved set; `-1` is returned immediately
on a contradiction, keeping the updates made so far. -/
def deduceLoop : List (Nat × Nat) → Nonogram → GuessStack → Int →
    Int × Nonogram × GuessStack
  | [], n, gs, count => (count, n, gs)
  | pos :: rest, n, gs, count =>
      if pos ∉ n.unsolved then deduceLoop rest n gs count
      else
        match check_regex n pos with
        | .either => deduceLoop rest n gs count
        | .unsat => (-1, n, gs)
        | .updated newRow newCol =>
            let n' := update_sequences n pos newRow newCol
            let gs' := match gs with
              | [] => gs
              | g :: t => addDependent g pos :: t
            deduceLoop rest n' gs' (count + 1)

/-- `Solver.deduce` (src/solver.py lines 62-81). -/
def deduce (n : Nonogram) (gs : GuessStack) : Int × Nonogram × GuessStack :=
  deduceLoop n.unsolved n gs 0

/-- `Solver.guess_cell` (src/solver.py lines 83-88); `list(unsolved)[0]`
raises IndexError when the set is empty. -/
def guess_cell (n : Nonogram) (gs : GuessStack) : Except Err (Nonogram × GuessStack) :=
  match n.unsolved with
  | [] => .error .other
  | pos :: _ => pure (update_at_pos n pos '1' none, Guess.cell pos [] :: gs)

/-- `Solver.guess_sequence` (src/solver.py lines 90-95); `solutions[0]`
raises IndexError when the list is empty. -/
def guess_sequence (lt : LineType) (idx : Nat) (n : Nonogram) (gs : GuessStack) :
    Except Err (Nonogram × GuessStack) :=
  match (getSeq n lt idx).solutions.getD [] with
  | [] => .error .other
  | newValue :: _ =>
      let old := (getSeq n lt idx).value
      pure (update_single_sequence n lt idx newValue,
        Guess.seqG lt idx newValue old [] :: gs)

/-- `Solver.revert_guess` (src/solver.py lines 97-105). -/
def revert_guess (n : Nonogram) (g : Guess) : Nonogram :=
  let n1 := (dependentOf g).foldl (fun nn cell => update_at_pos nn cell 'x' none) n
  match g with
  | .seqG lt idx _ oldValue _ => update_single_sequence n1 lt idx oldValue
  | .cell pos _ => update_at_pos n1 pos 'x' none

/-- The body of `Solver.get_next_cell_guess` (src/solver.py lines 126-136)
up to its recursive `get_next_guess(nonogram, guesses, True)` call: reverts
the popped cell guess and either pushes the Filled-to-Unfilled retry
(`some` result), requests a deeper backtrack (`none`), or raises the
defensive `raise Exception` when the guessed cell reads 'x'. -/
def next_cell_guess_step (n : Nonogram) (lastGuess : Guess) (gs : GuessStack) :
    Except Err (Option (Nonogram × GuessStack) × Nonogram) :=
  match lastGuess with
  | .cell pos _ =>
      let guessValue := (getSeq n .row pos.1).value.getD pos.2 'x'
      let n1 := revert_guess n lastGuess
      if guessValue = '0' then pure (none, n1)
      else if guessValue = '1' then
        pure (some (update_at_pos n1 pos '0' none, Guess.cell pos [] :: gs), n1)
      else .error .other
  | .seqG _ _ _ _ _ => .error .other

/-- The body of `Solver.get_next_sequence_guess` (src/solver.py lines
138-149) up to its recursive `get_next_guess(nonogram, guesses, True)`
call: looks the current line value up in `solutions` (ValueError when
absent), reverts, and either pushes the next stored solution (`some`) or
requests a deeper backtrack (`none`). -/
def next_sequence_guess_step (n : Nonogram) (lastGuess : Guess) (gs : GuessStack) :
    Except Err (Option (Nonogram × GuessStack) × Nonogram) :=
  match lastGuess with
  | .seqG lt idx _ oldValue _ =>
      let lastGuessValue := (getSeq n lt idx).value
      let solutionsList := (getSeq n lt idx).solutions.getD []
      match solutionsList.findIdx? (fun s => s == lastGuessValue) with
      | none => .error .other
      | some lastGuessIndex =>
          let n1 := revert_guess n lastGuess
          if lastGuessIndex + 1 < solutionsList.length then
            let nextValue := solutionsList.getD (lastGuessIndex + 1) []
            pure (some (update_single_sequence n1 lt idx nextValue,
              Guess.seqG lt idx nextValue oldValue [] :: gs), n1)
          else pure (none, n1)
  | .cell _ _ => .error .other

/-- The backtracking chain of `Solver.get_next_guess` with `revert=True`
(src/solver.py lines 109, 120-124 plus the recursive calls from the two
helpers): pop the most recent guess, revert it, and either push its
replacement or recurse on the shorter stack; an empty stack raises
`UnsolvableError`.  The recursion of the source (helper calling
`get_next_guess(..., True)`) is structural on the stack. -/
def backtrack_guess (n : Nonogram) : GuessStack → Except Err (Nonogram × GuessStack)
  | [] => .error .unsolvable
  | last :: rest => do
      let step ← match last with
        | .cell _ _ => next_cell_guess_step n last rest
        | .seqG _ _ _ _ _ => next_sequence_guess_step n last rest
      match step with
      | (some result, _) => pure result
      | (none, n1) => backtrack_guess n1 rest

/-- `Solver.get_next_guess` (src/solver.py lines 107-124). -/
def get_next_guess (shuffle : Shuffle) (n : Nonogram) (gs : GuessStack)
    (revert : Bool) : Except Err (Nonogram × GuessStack) :=
  if gs.isEmpty && revert then .error .unsolvable
  else
    let n := if gs.isEmpty then update_known_solution_sets shuffle n else n
    if !revert then
      match n.known_solution_sets.find? (fun e =>
          'x' ∈ (getSeq n e.1 e.2.1).value && !(guessedLine gs e.1 e.2.1)) with
      | some e => guess_sequence e.1 e.2.1 n gs
      | none => guess_cell n gs
    else backtrack_guess n gs

/-- The `while True` loop of `Solver.solve` (src/solver.py lines 151-167),
with explicit fuel; `none` means the fuel ran out before the loop finished. -/
def solveLoop (shuffle : Shuffle) : Nat → Nonogram → GuessStack →
    Option (Except Err (List (List Char)))
  | 0, _, _ => none
  | fuel + 1, n, gs =>
      let r := deduce n gs
      let cnt := r.1
      let n' := r.2.1
      let gs' := r.2.2
      if cnt > 0 then solveLoop shuffle fuel n' gs'
      else if n'.unsolved.length = 0 then some (.ok (get_grid n'))
      else if cnt = 0 then
        match get_next_guess shuffle n' gs' false with
        | .error e => some (.error e)
        | .ok (n'', gs'') => solveLoop shuffle fuel n'' gs''
      else if cnt = -1 && gs'.isEmpty then some (.error .unsolvable)
      else
        match get_next_guess shuffle n' gs' true with
        | .error e => some (.error e)
        | .ok (n'', gs'') => solveLoop shuffle fuel n'' gs''

/-- `Solver.solve` (src/solver.py lines 151-167). -/
def solve (shuffle : Shuffle) (clues : List (List Nat) × List (List Nat))
    (fuel : Nat) : Option (Except Err (List (List Char))) :=
  match mkNonogram shuffle clues with
  | .error e => some (.error e)
  | .ok n => solveLoop shuffle fuel n []

/-! ## Lemmas about single-cell substitution -/

theorem strSet_eq_set (s : List Char) (i : Nat) (c : Char) (h : i < s.length) :
    strSet s i c = s.set i c := by
  rw [List.set_eq_take_cons_drop _ h, strSet]
  simp

theorem strSet_getElem?_ne (s : List Char) (i : Nat) (c : Char) (h : i < s.length)
    (j : Nat) (hj : j ≠ i) : (strSet s i c)[j]? = s[j]? := by
  rw [strSet_eq_set s i c h]
  rw [List.getElem?_set_ne (by omega)]

theorem strSet_getElem?_eq (s : List Char) (i : Nat) (c : Char) (h : i < s.length) :
    (strSet s i c)[i]? = some c := by
  rw [strSet_eq_set s i c h]
  exact List.getElem?_set_eq_of_lt c h

/-- Shape of a successful `check_regex`: the returned pair is the current
row and column values with the same single character '0' or '1' written at
the checked cell. -/
theorem check_regex_updated_shape (n : Nonogram) (pos : Nat × Nat)
    (nr nc : List Char) (h : check_regex n pos = .updated nr nc) :
    (nr = strSet (getSeq n .row pos.1).value pos.2 '0' ∧
     nc = strSet (getSeq n .col pos.2).value pos.1 '0') ∨
    (nr = strSet (getSeq n .row pos.1).value pos.2 '1' ∧
     nc = strSet (getSeq n .col pos.2).value pos.1 '1') := by
  dsimp only [check_regex] at h
  split at h
  · exact absurd h (by simp)
  · split at h
    · exact absurd h (by simp)
    · split at h
      · left
        refine ⟨?_, ?_⟩ <;> (injection h with h1 h2; simp_all)
      · right
        refine ⟨?_, ?_⟩ <;> (injection h with h1 h2; simp_all)

/-- C10: whenever `Solver.check_regex` returns a pair `(new_row, new_col)`
rather than "either"/"error", `new_row` agrees with the current row value at
every index other than `pos.2`, `new_col` agrees with the current column
value at every index other than `pos.1`, and the two values written at the
shared cell are equal and are '1' (Filled) or '0' (Unfilled), never 'x'. -/
theorem check_regex_frame (n : Nonogram) (pos : Nat × Nat) (nr nc : List Char)
    (h : check_regex n pos = .updated nr nc)
    (hr : pos.2 < (getSeq n .row pos.1).value.length)
    (hc : pos.1 < (getSeq n .col pos.2).value.length) :
    (∀ j, j ≠ pos.2 → nr[j]? = (getSeq n .row pos.1).value[j]?) ∧
    (∀ i, i ≠ pos.1 → nc[i]? = (getSeq n .col pos.2).value[i]?) ∧
    (∃ v, nr[pos.2]? = some v ∧ nc[pos.1]? = some v ∧ (v = '1' ∨ v = '0')) := by
  rcases check_regex_updated_shape n pos nr nc h with ⟨h1, h2⟩ | ⟨h1, h2⟩ <;>
    subst h1 <;> subst h2 <;>
    refine ⟨fun j hj => strSet_getElem?_ne _ _ _ hr j hj,
            fun i hi => strSet_getElem?_ne _ _ _ hc i hi,
            _, strSet_getElem?_eq _ _ _ hr, strSet_getElem?_eq _ _ _ hc, by simp⟩

/-- A concrete board used to instantiate theorems with hypotheses: a 1×1
puzzle whose row and column clue is `(1,)`. -/
def oneByOne : Nonogram :=
  ⟨50, 1, 1, [⟨1, [1], ['x'], 1, some [['1']]⟩], [⟨1, [1], ['x'], 1, some [['1']]⟩],
   [], [(0, 0)]⟩

theorem check_regex_frame_witness :
    (∀ j, j ≠ 0 → [('1' : Char)][j]? = (getSeq oneByOne .row 0).value[j]?) ∧
    (∀ i, i ≠ 0 → [('1' : Char)][i]? = (getSeq oneByOne .col 0).value[i]?) ∧
    (∃ v, [('1' : Char)][0]? = some v ∧ [('1' : Char)][0]? = some v ∧
      (v = '1' ∨ v = '0')) :=
  check_regex_frame oneByOne (0, 0) ['1'] ['1'] (by decide) (by decide) (by decide)

/-! ## C8: construction of a clue that cannot fit fails inside
`get_initial_value` -/

/-- The index condition under which `pySet` succeeds on a list of length `L`. -/
def validIdx (L : Nat) (i : Int) : Prop :=
  0 ≤ (if i < 0 then i + L else i) ∧ (if i < 0 then i + L else i) < L

instance (L : Nat) (i : Int) : Decidable (validIdx L i) := by
  unfold validIdx
  infer_instance

theorem except_bind_ok {α β : Type} (a : α) (f : α → Except Err β) :
    (Except.ok a >>= f) = f a := rfl

theorem except_bind_error {α β : Type} (e : Err) (f : α → Except Err β) :
    ((Except.error e : Except Err α) >>= f) = Except.error e := rfl

theorem pySet_ok_length {l l' : List Char} {i : Int} {c : Char}
    (h : pySet l i c = .ok l') : l'.length = l.length := by
  dsimp only [pySet] at h
  split_ifs at h
  all_goals first
    | (injection h with h2; subst h2; simp)
    | (exact absurd h (by simp))

theorem pySet_error_of_invalid {l : List Char} {i : Int} {c : Char}
    (h : ¬ validIdx l.length i) : pySet l i c = .error .other := by
  unfold validIdx at h
  dsimp only [pySet]
  rw [if_neg h]

theorem pySet_ok_of_valid {l : List Char} {i : Int} (c : Char)
    (h : validIdx l.length i) :
    pySet l i c = .ok (l.set (if i < 0 then i + l.length else i).toNat c) := by
  unfold validIdx at h
  dsimp only [pySet]
  rw [if_pos h]

theorem pySet_error_other {l : List Char} {i : Int} {c : Char} {e : Err}
    (h : pySet l i c = .error e) : e = .other := by
  dsimp only [pySet] at h
  split_ifs at h <;> simp_all

theorem writeOnes_ok_length {idxs : List Int} {v v' : List Char}
    (h : writeOnes v idxs = .ok v') : v'.length = v.length := by
  induction idxs generalizing v with
  | nil =>
      simp only [writeOnes, List.foldlM_nil] at h
      injection h with h
      subst h
      rfl
  | cons i t ih =>
      simp only [writeOnes, List.foldlM_cons] at h ih
      cases hp : pySet v i '1' with
      | error e =>
          rw [hp, except_bind_error] at h
          exact absurd h (by simp)
      | ok v1 =>
          rw [hp, except_bind_ok] at h
          rw [ih h, pySet_ok_length hp]

theorem writeOnes_error_of_invalid {idxs : List Int} {v : List Char}
    (h : ∃ i ∈ idxs, ¬ validIdx v.length i) :
    writeOnes v idxs = .error .other := by
  induction idxs generalizing v with
  | nil => simp at h
  | cons i t ih =>
      obtain ⟨j, hj, hbad⟩ := h
      simp only [writeOnes, List.foldlM_cons] at ih ⊢
      by_cases hv : validIdx v.length i
      · rw [pySet_ok_of_valid '1' hv, except_bind_ok]
        rcases List.mem_cons.mp hj with rfl | hmem
        · exact absurd hv hbad
        · exact ih ⟨j, hmem, by simpa using hbad⟩
      · rw [pySet_error_of_invalid hv, except_bind_error]

theorem writeOnes_error_other {idxs : List Int} {v : List Char} {e : Err}
    (h : writeOnes v idxs = .error e) : e = .other := by
  induction idxs generalizing v with
  | nil => simp [writeOnes, List.foldlM_nil, Pure.pure, Except.pure] at h
  | cons i t ih =>
      simp only [writeOnes, List.foldlM_cons] at h ih
      cases hp : pySet v i '1' with
      | error e1 =>
          rw [hp, except_bind_error] at h
          injection h with h
          subst h
          exact pySet_error_other hp
      | ok v1 =>
          rw [hp, except_bind_ok] at h
          exact ih h

theorem fillSection_ok_length {clue : List Nat} {es : Int} {v v' : List Char}
    {p : Nat × Nat} (h : fillSection clue es v p = .ok v') :
    v'.length = v.length := by
  dsimp only [fillSection] at h
  split_ifs at h
  · injection h with h
    subst h
    rfl
  · exact writeOnes_ok_length h

theorem fillSection_error_other {clue : List Nat} {es : Int} {v : List Char}
    {p : Nat × Nat} {e : Err} (h : fillSection clue es v p = .error e) :
    e = .other := by
  dsimp only [fillSection] at h
  split_ifs at h
  · exact absurd h (by simp [Pure.pure, Except.pure])
  · exact writeOnes_error_other h

theorem foldlM_fillSection_error {clue : List Nat} {es : Int} {L : Nat}
    {entries : List (Nat × Nat)} {v0 : List Char} (hv : v0.length = L)
    {e : Nat × Nat} (he : e ∈ entries)
    (herr : ∀ v : List Char, v.length = L → fillSection clue es v e = .error .other) :
    entries.foldlM (fillSection clue es) v0 = .error .other := by
  induction entries generalizing v0 with
  | nil => simp at he
  | cons a t ih =>
      rw [List.foldlM_cons]
      cases hp : fillSection clue es v0 a with
      | error err =>
          have he2 : err = Err.other := fillSection_error_other hp
          subst he2
          rw [except_bind_error]
      | ok v1 =>
          rcases List.mem_cons.mp he with rfl | hmem
          · rw [herr v0 hv] at hp
            exact absurd hp (by simp)
          · rw [except_bind_ok]
            exact ih (by rw [fillSection_ok_length hp, hv]) hmem

theorem mem_rangeInt {lo hi i : Int} : i ∈ rangeInt lo hi ↔ lo ≤ i ∧ i < hi := by
  unfold rangeInt
  constructor
  · intro hmem
    obtain ⟨k, hk, hEq⟩ := List.mem_map.mp hmem
    rw [List.mem_range] at hk
    subst hEq
    omega
  · intro hcond
    refine List.mem_map.mpr ⟨(i - lo).toNat, ?_, ?_⟩
    · rw [List.mem_range]
      omega
    · omega

/-- C8: for every nonempty clue whose minimum required length
`sum(clue) + len(clue) - 1` exceeds the sequence length, the fill loop of
`Sequence.get_initial_value` writes past the end of the value list
(IndexError), so `Sequence.__init__` fails during construction, for every
enumeration cap: no Sequence in a partial state is ever produced. -/
theorem sequence_init_fails_on_overlong_clue (clue : List Nat) (length : Nat)
    (hne : clue ≠ []) (hover : length + 1 < clue.sum + clue.length) :
    get_initial_value clue length = .error .other ∧
    ∀ m : Int, mkSequence clue length m = .error .other := by
  have hgiv : get_initial_value clue length = .error .other := by
    obtain ⟨front, lastE, rfl⟩ := (List.eq_nil_or_concat' clue).resolve_left hne
    have hsum : (front ++ [lastE]).sum = front.sum + lastE := by simp
    have hlen : (front ++ [lastE]).length = front.length + 1 := by simp
    have key : extraSpace (front ++ [lastE]) length
        = (length : Int) - (front.sum : Int) - (lastE : Int) - (front.length : Int) := by
      unfold extraSpace
      rw [hsum, hlen]
      push_cast
      ring
    rw [hsum, hlen] at hover
    have hes : extraSpace (front ++ [lastE]) length < 0 := by
      rw [key]
      omega
    unfold get_initial_value
    rw [if_neg hne,
      if_neg (by
        have h0 : (0 : Int) ≤ (maxClue (front ++ [lastE]) : Int) := Int.ofNat_nonneg _
        omega)]
    apply foldlM_fillSection_error (L := length) (by simp)
      (e := (front.length, lastE))
    · rw [List.mk_mem_enum_iff_getElem?]
      rw [List.getElem?_append_right (le_refl _)]
      simp
    · intro v hv
      dsimp only [fillSection]
      rw [if_neg (by
        have h0 : (0 : Int) ≤ (lastE : Int) := Int.ofNat_nonneg _
        omega)]
      apply writeOnes_error_of_invalid
      refine ⟨(length : Int), ?_, ?_⟩
      · have htake : ((front ++ [lastE]).take front.length).sum = front.sum := by
          rw [List.take_left]
        rw [mem_rangeInt, htake, key]
        refine ⟨by omega, by omega⟩
      · rw [hv]
        unfold validIdx
        rw [if_neg (by omega)]
        omega
  refine ⟨hgiv, fun m => ?_⟩
  unfold mkSequence
  rw [hgiv, except_bind_error]

theorem sequence_init_fails_on_overlong_clue_witness :
    get_initial_value [3] 1 = .error .other ∧ mkSequence [3] 1 50 = .error .other :=
  ⟨(sequence_init_fails_on_overlong_clue [3] 1 (by decide) (by decide)).1,
   (sequence_init_fails_on_overlong_clue [3] 1 (by decide) (by decide)).2 50⟩

/-! ## C6: the state right after construction for exactly-filling clues -/

/-- The separator-joined pattern `1^r1 x 1^r2 x ... x 1^rk` that
`get_initial_value` produces for a clue that exactly fills its line:
every run fully Filled, one Unknown cell between consecutive runs. -/
def runsPattern : List Nat → List Char
  | [] => []
  | [r] => List.replicate r '1'
  | r :: rest => List.replicate r '1' ++ 'x' :: runsPattern rest

theorem rangeInt_self (lo : Int) : rangeInt lo lo = [] := by
  unfold rangeInt
  simp

theorem rangeInt_cons {lo hi : Int} (h : lo < hi) :
    rangeInt lo hi = lo :: rangeInt (lo + 1) hi := by
  unfold rangeInt
  have h1 : (hi - lo).toNat = (hi - (lo + 1)).toNat + 1 := by omega
  rw [h1, List.range_succ_eq_map]
  simp only [List.map_cons, List.map_map]
  congr 1
  · simp
  · apply List.map_congr_left
    intro a _
    simp only [Function.comp_apply]
    push_cast
    ring

theorem set_append_len (P B : List Char) (c : Char) :
    (P ++ B).set P.length c = P ++ B.set 0 c := by
  induction P with
  | nil => simp
  | cons p t ih => simp [List.set, ih]

/-- Writing '1' over the contiguous range `[P.length, P.length + sec)` of
`P ++ x^sec ++ S` succeeds and fills the block. -/
theorem writeOnes_block (sec : Nat) (P S : List Char) :
    writeOnes (P ++ List.replicate sec 'x' ++ S)
      (rangeInt (P.length : Int) ((P.length : Int) + sec))
      = .ok (P ++ List.replicate sec '1' ++ S) := by
  induction sec generalizing P with
  | zero => simp [rangeInt_self, writeOnes, List.foldlM_nil, Pure.pure, Except.pure]
  | succ m ih =>
      rw [rangeInt_cons (by omega)]
      simp only [writeOnes, List.foldlM_cons]
      have hval : validIdx (P ++ List.replicate (m + 1) 'x' ++ S).length (P.length : Int) := by
        unfold validIdx
        rw [if_neg (by omega)]
        refine ⟨by omega, ?_⟩
        simp
        omega
      rw [pySet_ok_of_valid '1' hval, if_neg (by omega)]
      have htn : ((P.length : Int)).toNat = P.length := by omega
      rw [htn, except_bind_ok]
      rw [List.append_assoc, List.replicate_succ, List.cons_append, set_append_len]
      simp only [List.set]
      have key := ih (P ++ ['1'])
      simp only [writeOnes] at key
      rw [show (P ++ ['1']) ++ List.replicate m 'x' ++ S
            = P ++ '1' :: (List.replicate m 'x' ++ S) by simp] at key
      rw [show ((P ++ ['1']).length : Int) = (P.length : Int) + 1 by simp] at key
      rw [show (P ++ ['1']) ++ List.replicate m '1' ++ S
            = P ++ List.replicate (m + 1) '1' ++ S by simp [List.replicate_succ]] at key
      rw [show (P.length : Int) + 1 + (m : Int)
            = (P.length : Int) + ((m + 1 : Nat) : Int) by push_cast; ring] at key
      exact key

theorem foldl_max_init_le (clue : List Nat) (acc : Nat) :
    acc ≤ clue.foldl max acc := by
  induction clue generalizing acc with
  | nil => simp
  | cons c t ih => exact le_trans (le_max_left acc c) (ih (max acc c))

theorem foldl_max_mem_le {t : List Nat} {r : Nat} (h : r ∈ t) :
    ∀ acc, r ≤ t.foldl max acc := by
  induction t with
  | nil => simp at h
  | cons c t' ih =>
      intro acc
      rcases List.mem_cons.mp h with rfl | hmem
      · simp only [List.foldl_cons]
        exact le_trans (le_max_right acc r) (foldl_max_init_le t' (max acc r))
      · simp only [List.foldl_cons]
        exact ih hmem (max acc c)

theorem le_maxClue {clue : List Nat} {r : Nat} (h : r ∈ clue) : r ≤ maxClue clue :=
  foldl_max_mem_le h 0

/-- The fill loop of `get_initial_value` for an exactly-filling suffix of
positive runs: starting from the already-built prefix `P` followed by the
still-unknown tail, the remaining loop iterations produce `P` followed by
the runs pattern of the remaining clue suffix. -/
theorem fold_sections_runs (rest : List Nat) :
    ∀ (full : List Nat) (k : Nat) (P : List Char),
    (∀ r ∈ rest, 0 < r) →
    full.drop k = rest →
    (full.take k).sum + k = P.length →
    (List.enumFrom k rest).foldlM (fillSection full 0)
        (P ++ List.replicate (rest.sum + rest.length - 1) 'x')
      = .ok (P ++ runsPattern rest) := by
  induction rest with
  | nil =>
      intro full k P _ _ _
      simp [List.foldlM_nil, runsPattern, Pure.pure, Except.pure]
  | cons r rest' ih =>
      intro full k P hpos hdrop htake
      rw [List.enumFrom_cons, List.foldlM_cons]
      have hr : 0 < r := hpos r (List.mem_cons_self r rest')
      have hstep : fillSection full 0 (P ++ List.replicate ((r :: rest').sum + (r :: rest').length - 1) 'x') (k, r)
          = .ok ((P ++ List.replicate r '1')
              ++ List.replicate (rest'.sum + rest'.length) 'x') := by
        dsimp only [fillSection]
        rw [if_neg (by omega)]
        have hstart : ((full.take k).sum : Int) + (k : Int) + 0 = (P.length : Int) := by
          push_cast [← htake]
          ring
        rw [hstart]
        have hsplit : List.replicate ((r :: rest').sum + (r :: rest').length - 1) 'x'
            = List.replicate r 'x' ++ List.replicate (rest'.sum + rest'.length) 'x' := by
          rw [← List.replicate_add]
          congr 1
          simp only [List.sum_cons, List.length_cons]
          omega
        rw [hsplit, ← List.append_assoc]
        have hend : (P.length : Int) + (r : Int) - 0 = (P.length : Int) + (r : Int) := by ring
        rw [hend]
        rw [writeOnes_block r P (List.replicate (rest'.sum + rest'.length) 'x')]
      rw [hstep, except_bind_ok]
      cases rest' with
      | nil =>
          simp [List.enumFrom, List.foldlM_nil, runsPattern, Pure.pure, Except.pure]
      | cons r2 rest'' =>
          have hlen2 : (r2 :: rest'').sum + (r2 :: rest'').length
              = ((r2 :: rest'').sum + (r2 :: rest'').length - 1) + 1 := by
            simp
            omega
          have hx : List.replicate ((r2 :: rest'').sum + (r2 :: rest'').length) 'x'
              = 'x' :: List.replicate ((r2 :: rest'').sum + (r2 :: rest'').length - 1) 'x' := by
            rw [hlen2]
            rw [Nat.add_comm _ 1, List.replicate_add]
            simp
          rw [hx]
          have hre : (P ++ List.replicate r '1')
                ++ 'x' :: List.replicate ((r2 :: rest'').sum + (r2 :: rest'').length - 1) 'x'
              = ((P ++ List.replicate r '1') ++ ['x'])
                ++ List.replicate ((r2 :: rest'').sum + (r2 :: rest'').length - 1) 'x' := by
            simp
          rw [hre]
          have hkey := ih full (k + 1) ((P ++ List.replicate r '1') ++ ['x'])
            (fun x hx2 => hpos x (List.mem_cons_of_mem r hx2))
            (by
              have : full.drop (k + 1) = (full.drop k).drop 1 := by
                rw [List.drop_drop]
              rw [this, hdrop]
              rfl)
            (by
              have hfk : full[k]? = some r := by
                have : (full.drop k)[0]? = full[k]? := by
                  rw [List.getElem?_drop, Nat.add_zero]
                rw [← this, hdrop]
                rfl
              rw [List.take_succ, hfk]
              simp [List.sum_append, ← htake]
              omega)
          rw [hkey]
          have : (P ++ List.replicate r '1') ++ 'x' :: runsPattern (r2 :: rest'')
              = P ++ runsPattern (r :: r2 :: rest'') := by
            show _ = P ++ (List.replicate r '1' ++ 'x' :: runsPattern (r2 :: rest''))
            simp
          rw [← this]
          simp

theorem runsPattern_count_x (clue : List Nat) :
    (runsPattern clue).count 'x' = clue.length - 1 := by
  induction clue with
  | nil => simp [runsPattern]
  | cons r rest ih =>
      cases rest with
      | nil => simp [runsPattern, List.count_replicate]
      | cons r2 t =>
          show (List.replicate r '1' ++ 'x' :: runsPattern (r2 :: t)).count 'x' = _
          rw [List.count_append, List.count_cons_self, List.count_replicate, ih]
          simp

/-- C6 counterexample: the clue `(1,1)` exactly fills length 3
(`sum + runs - 1 = 3`), yet the state immediately after construction is
`1x1`: the separator cell remains Unknown, not zero Unknown cells. -/
theorem exact_fill_counterexample :
    [1, 1].sum + [1, 1].length - 1 = 3 ∧
    get_initial_value [1, 1] 3 = .ok ['1', 'x', '1'] ∧
    mkSequence [1, 1] 3 50
      = .ok ⟨3, [1, 1], ['1', 'x', '1'], 1, some [['1', '0', '1']]⟩ ∧
    'x' ∈ ['1', 'x', '1'] :=
  ⟨rfl, by rfl, by rfl, by decide⟩

/-- C6 amended: for a nonempty clue of positive runs that exactly fills the
line, the state immediately after construction is the runs fully Filled
with exactly one Unknown cell between consecutive runs — so it has exactly
`len(clue) - 1` Unknown cells (zero only when the clue is a single run). -/
theorem get_initial_value_exact_fill (clue : List Nat) (hne : clue ≠ [])
    (hpos : ∀ r ∈ clue, 0 < r) :
    get_initial_value clue (clue.sum + clue.length - 1) = .ok (runsPattern clue) ∧
    (runsPattern clue).count 'x' = clue.length - 1 := by
  refine ⟨?_, runsPattern_count_x clue⟩
  have hlp : 0 < clue.length := List.length_pos.mpr hne
  have hes0 : extraSpace clue (clue.sum + clue.length - 1) = 0 := by
    unfold extraSpace
    omega
  have hmax : 0 < maxClue clue := by
    obtain ⟨r, hr⟩ := List.exists_mem_of_ne_nil clue hne
    exact lt_of_lt_of_le (hpos r hr) (le_maxClue hr)
  unfold get_initial_value
  rw [hes0, if_neg hne, if_neg (by omega)]
  have key := fold_sections_runs clue clue 0 [] hpos (by simp) (by simp)
  simpa [List.enum] using key

theorem get_initial_value_exact_fill_witness :
    get_initial_value [2, 1] ([2, 1].sum + [2, 1].length - 1)
        = .ok (runsPattern [2, 1]) ∧
    (runsPattern [2, 1]).count 'x' = [2, 1].length - 1 :=
  get_initial_value_exact_fill [2, 1] (by decide) (by decide)

/-! ## C3: solution counting vs the enumeration -/

theorem sum_choose_shift (m : Nat) : ∀ B : Nat,
    (∑ i in Finset.range B, Nat.choose (m + i) m) = Nat.choose (m + B) (m + 1) := by
  intro B
  induction B with
  | zero => simp [Nat.choose_eq_zero_of_lt]
  | succ b ihb =>
      rw [Finset.sum_range_succ, ihb]
      have h1 : m + (b + 1) = (m + b) + 1 := by omega
      rw [h1, Nat.choose_succ_succ (m + b) m]
      simp only [Nat.succ_eq_add_one]
      omega

theorem sum_map_range_length (n : Nat) (f : Nat → List (List Char)) :
    ((List.range n).map (List.length ∘ f)).sum
      = ∑ i in Finset.range n, (f i).length := rfl

/-- The recursive enumeration of `get_possible_solutions` produces exactly
`C(length - sum + 1, len(clue))` lines whenever the clue fits. -/
theorem gps_length (clue : List Nat) : ∀ (length : Nat) (prev : List Char),
    clue.sum + clue.length - 1 ≤ length →
    (get_possible_solutions clue length prev).length
      = Nat.choose (length - clue.sum + 1) clue.length := by
  induction clue with
  | nil =>
      intro L prev _
      simp [get_possible_solutions]
  | cons c0 rest ih =>
      intro L prev hfit
      simp only [get_possible_solutions, List.length_flatMap]
      rw [sum_map_range_length]
      cases rest with
      | nil =>
          simp only [List.isEmpty_nil, List.sum_nil, List.length_nil, Nat.add_zero,
            Nat.zero_add, Nat.cast_zero, if_true, List.sum_cons, List.length_cons] at hfit ⊢
          have hB : ((L : Int) - 0 - (c0 : Int) + 1).toNat = L - c0 + 1 := by omega
          rw [hB]
          have hterm : ∀ i ∈ Finset.range (L - c0 + 1),
              (get_possible_solutions [] (L - (c0 + i))
                (prev ++ List.replicate i '0' ++ List.replicate c0 '1'
                  ++ List.replicate 0 '0')).length = 1 := by
            intro i _
            simp [get_possible_solutions]
          rw [Finset.sum_congr rfl hterm]
          simp [Nat.choose_one_right]
      | cons r2 t =>
          simp only [List.isEmpty_cons, Bool.false_eq_true, if_false,
            List.sum_cons, List.length_cons] at ih hfit ⊢
          have hfit2 : c0 + (r2 + t.sum) + (t.length + 1) ≤ L := by omega
          have hB : ((L : Int) - ((r2 + t.sum + (t.length + 1) : Nat) : Int)
              - (c0 : Int) + 1).toNat
              = L - (r2 + t.sum + (t.length + 1)) - c0 + 1 := by omega
          rw [hB]
          have hterm : ∀ i ∈ Finset.range (L - (r2 + t.sum + (t.length + 1)) - c0 + 1),
              (get_possible_solutions (r2 :: t) (L - (c0 + i + 1))
                (prev ++ List.replicate i '0' ++ List.replicate c0 '1'
                  ++ List.replicate 1 '0')).length
              = Nat.choose ((t.length + 1)
                  + ((L - (r2 + t.sum + (t.length + 1)) - c0 + 1) - 1 - i))
                  (t.length + 1) := by
            intro i hi
            rw [Finset.mem_range] at hi
            rw [ih (L - (c0 + i + 1)) _ (by omega)]
            congr 1
            omega
          rw [Finset.sum_congr rfl hterm,
            Finset.sum_range_reflect
              (fun j => Nat.choose ((t.length + 1) + j) (t.length + 1)) _,
            sum_choose_shift]
          congr 1
          omega

/-- The `prev` accumulator of `get_possible_solutions` is a common prefix:
the enumeration from `prev` is the enumeration from the empty prefix with
`prev` prepended to every line. -/
theorem gps_prev (clue : List Nat) : ∀ (length : Nat) (prev : List Char),
    get_possible_solutions clue length prev
      = (get_possible_solutions clue length []).map (fun s => prev ++ s) := by
  induction clue with
  | nil =>
      intro L prev
      simp [get_possible_solutions]
  | cons c0 rest ih =>
      intro L prev
      simp only [get_possible_solutions, List.map_flatMap]
      congr 1
      funext i
      rw [ih (L - (c0 + i + (if rest.isEmpty then 0 else 1)))
           (prev ++ List.replicate i '0' ++ List.replicate c0 '1'
             ++ List.replicate (if rest.isEmpty then 0 else 1) '0'),
         ih (L - (c0 + i + (if rest.isEmpty then 0 else 1)))
           ([] ++ List.replicate i '0' ++ List.replicate c0 '1'
             ++ List.replicate (if rest.isEmpty then 0 else 1) '0'),
         List.map_map]
      congr 1
      funext s
      simp [List.append_assoc]

theorem getElem?_at_run (prev : List Char) (i c0 : Nat) (R : List Char)
    (hc0 : 0 < c0) :
    (prev ++ (List.replicate i '0' ++ (List.replicate c0 '1' ++ R)))[prev.length + i]?
      = some '1' := by
  rw [List.getElem?_append_right (by omega)]
  have h1 : prev.length + i - prev.length = i := by omega
  rw [h1, List.getElem?_append_right (by simp)]
  have h2 : i - (List.replicate i '0').length = 0 := by simp
  rw [h2, List.getElem?_append]
  simp [List.getElem?_replicate, hc0]

theorem getElem?_at_gap (prev : List Char) (i j : Nat) (R : List Char)
    (hij : j < i) :
    (prev ++ (List.replicate i '0' ++ R))[prev.length + j]? = some '0' := by
  rw [List.getElem?_append_right (by omega)]
  have h1 : prev.length + j - prev.length = j := by omega
  rw [h1, List.getElem?_append]
  simp [List.getElem?_replicate, hij]

/-- For a clue of positive runs the enumeration has no duplicates: the
first run's offset is visible in the line, and by induction so are the
rest. -/
theorem gps_nodup (clue : List Nat) : (∀ r ∈ clue, 0 < r) →
    ∀ (length : Nat) (prev : List Char),
    (get_possible_solutions clue length prev).Nodup := by
  induction clue with
  | nil =>
      intro _ L prev
      simp [get_possible_solutions]
  | cons c0 rest ih =>
      intro hpos L prev
      have hc0 : 0 < c0 := hpos c0 (List.mem_cons_self c0 rest)
      have hrest : ∀ r ∈ rest, 0 < r := fun r hr => hpos r (List.mem_cons_of_mem c0 hr)
      simp only [get_possible_solutions]
      rw [List.flatMap_def, List.nodup_flatten]
      constructor
      · intro l hl
        obtain ⟨i, _, rfl⟩ := List.mem_map.mp hl
        exact ih hrest _ _
      · rw [List.pairwise_map]
        apply List.Pairwise.imp _ (List.pairwise_lt_range _)
        intro a b hab
        intro x hxa hxb
        rw [gps_prev] at hxa hxb
        obtain ⟨sa, _, hsa⟩ := List.mem_map.mp hxa
        obtain ⟨sb, _, hsb⟩ := List.mem_map.mp hxb
        have hva : x[prev.length + a]? = some '1' := by
          rw [← hsa]
          have : prev ++ List.replicate a '0' ++ List.replicate c0 '1'
                ++ List.replicate (if rest.isEmpty then 0 else 1) '0' ++ sa
              = prev ++ (List.replicate a '0' ++ (List.replicate c0 '1'
                ++ (List.replicate (if rest.isEmpty then 0 else 1) '0' ++ sa))) := by
            simp [List.append_assoc]
          rw [this]
          exact getElem?_at_run prev a c0 _ hc0
        have hvb : x[prev.length + a]? = some '0' := by
          rw [← hsb]
          have : prev ++ List.replicate b '0' ++ List.replicate c0 '1'
                ++ List.replicate (if rest.isEmpty then 0 else 1) '0' ++ sb
              = prev ++ (List.replicate b '0' ++ ((List.replicate c0 '1'
                ++ (List.replicate (if rest.isEmpty then 0 else 1) '0' ++ sb)))) := by
            simp [List.append_assoc]
          rw [this]
          exact getElem?_at_gap prev b a _ hab
        rw [hva] at hvb
        exact absurd (Option.some.inj hvb) (by decide)

theorem gpsc_fitting (clue : List Nat) (length : Nat)
    (hfit : clue.sum + clue.length - 1 ≤ length) :
    get_possible_solution_count clue length
      = .ok ((Nat.choose (length - clue.sum + 1) clue.length : Nat) : Int) := by
  unfold get_possible_solution_count
  split_ifs with h
  · subst h
    simp
  · have hlen : 0 < clue.length := List.length_pos.mpr h
    unfold pyComb
    rw [if_neg (by omega)]
    congr 1
    have htn : ((length : Int) - ((clue.length : Int) - 1)
        - ((clue.sum : Int) - (clue.length : Int))).toNat
        = length - clue.sum + 1 := by omega
    rw [htn]
    simp

/-- C3 counterexample: the clue `(0,)` on length 1 is within the documented
input domain (run lengths are non-negative), `get_possible_solution_count`
returns 2 for it, but only one distinct completion exists: the enumeration
emits the line `0` twice. -/
theorem count_neq_distinct_completions :
    get_possible_solution_count [0] 1 = .ok 2 ∧
    get_possible_solutions [0] 1 [] = [['0'], ['0']] ∧
    ((get_possible_solutions [0] 1 []).dedup).length = 1 ∧
    (2 : Int) ≠ (((get_possible_solutions [0] 1 []).dedup).length : Int) :=
  ⟨by rfl, by rfl, by rfl, by decide⟩

/-- C3 amended: for clues of positive run lengths that fit their length
(`sum + len - 1 ≤ length`), `get_possible_solution_count` equals the number
of enumerated completions, which are pairwise distinct; it is 1 for the
empty clue and `L - k + 1` for a single run `(k,)` with `1 ≤ k ≤ L`; and a
`Sequence` whose solutions list is populated at construction satisfies
`solutions_possible = len(solutions)`. -/
theorem solution_count_exact (clue : List Nat) (length : Nat)
    (hfit : clue.sum + clue.length - 1 ≤ length)
    (hpos : ∀ r ∈ clue, 0 < r) :
    get_possible_solution_count clue length
        = .ok (((get_possible_solutions clue length []).length : Nat) : Int) ∧
    (get_possible_solutions clue length []).Nodup ∧
    get_possible_solution_count [] length = .ok 1 ∧
    (∀ k : Nat, 1 ≤ k → k ≤ length →
      get_possible_solution_count [k] length = .ok ((length : Int) - (k : Int) + 1)) ∧
    (∀ (m : Int) (s : Sequence) (sl : List (List Char)),
      mkSequence clue length m = .ok s → s.solutions = some sl →
      s.solutions_possible = (sl.length : Int)) := by
  have hcount := gpsc_fitting clue length hfit
  have hlen := gps_length clue length [] hfit
  refine ⟨by rw [hcount, hlen], gps_nodup clue hpos length [],
    by simp [get_possible_solution_count], ?_, ?_⟩
  · intro k hk1 hk2
    have h := gpsc_fitting [k] length (by simp; omega)
    rw [h]
    simp only [List.sum_cons, List.sum_nil, List.length_cons, List.length_nil,
      Nat.add_zero, Nat.zero_add, Nat.choose_one_right]
    congr 1
    omega
  · intro m s sl hmk hsol
    unfold mkSequence at hmk
    cases hg : get_initial_value clue length with
    | error e =>
        rw [hg, except_bind_error] at hmk
        cases hmk
    | ok v =>
        rw [hg, except_bind_ok, hcount, except_bind_ok] at hmk
        injection hmk with hmk
        subst hmk
        simp only at hsol
        split_ifs at hsol with hif
        injection hsol with hsol
        subst hsol
        simp [hlen]

theorem solution_count_exact_witness :
    get_possible_solution_count [1, 1] 4
        = .ok (((get_possible_solutions [1, 1] 4 []).length : Nat) : Int) ∧
    (get_possible_solutions [1, 1] 4 []).Nodup ∧
    get_possible_solution_count [2] 4 = .ok 3 := by
  have h := solution_count_exact [1, 1] 4 (by decide) (by decide)
  refine ⟨h.1, h.2.1, ?_⟩
  have h2 := h.2.2.2.1 2 (by decide) (by decide)
  rw [h2]
  norm_num

/-! ## C9: `update_known_solution_sets` prunes exactly, sorts, and is
idempotent -/

def lineCount (n : Nonogram) (lt : LineType) : Nat :=
  match lt with
  | .row => n.rows.length
  | .col => n.cols.length

theorem getSeq_setSeq_same (n : Nonogram) (lt : LineType) (idx : Nat) (s : Sequence)
    (h : idx < lineCount n lt) : getSeq (setSeq n lt idx s) lt idx = s := by
  cases lt <;>
    simp_all [getSeq, setSeq, lineCount, List.getD_eq_getElem?_getD,
      List.getElem?_set_eq_of_lt]

theorem getSeq_setSeq_ne (n : Nonogram) (lt lt' : LineType) (idx idx' : Nat)
    (s : Sequence) (h : ¬ (lt = lt' ∧ idx = idx')) :
    getSeq (setSeq n lt idx s) lt' idx' = getSeq n lt' idx' := by
  cases lt <;> cases lt' <;>
    simp_all [getSeq, setSeq, List.getD_eq_getElem?_getD] <;>
    rw [List.getElem?_set_ne (by tauto)]

theorem setSeq_fields (n : Nonogram) (lt : LineType) (idx : Nat) (s : Sequence) :
    (setSeq n lt idx s).rows.length = n.rows.length ∧
    (setSeq n lt idx s).cols.length = n.cols.length ∧
    (setSeq n lt idx s).known_solution_sets = n.known_solution_sets ∧
    (setSeq n lt idx s).unsolved = n.unsolved ∧
    (setSeq n lt idx s).width = n.width ∧
    (setSeq n lt idx s).height = n.height ∧
    (setSeq n lt idx s).max_solutions_to_find = n.max_solutions_to_find := by
  cases lt <;> simp [setSeq]

theorem setSeq_lineCount (n : Nonogram) (lt : LineType) (idx : Nat) (s : Sequence)
    (lt' : LineType) : lineCount (setSeq n lt idx s) lt' = lineCount n lt' := by
  cases lt <;> cases lt' <;> simp [setSeq, lineCount]

theorem kssStep_lineCount (σ : Shuffle) (acc : Nonogram × List (LineType × Nat × Int))
    (e : LineType × Nat × Int) (lt : LineType) :
    lineCount (kssStep σ acc e).1 lt = lineCount acc.1 lt := by
  simp only [kssStep]
  exact setSeq_lineCount acc.1 e.1 e.2.1 _ lt

theorem kss_fold_fields (σ : Shuffle) (known : List (LineType × Nat × Int)) :
    ∀ (n : Nonogram) (sets0 : List (LineType × Nat × Int)),
    (known.foldl (kssStep σ) (n, sets0)).1.rows.length = n.rows.length ∧
    (known.foldl (kssStep σ) (n, sets0)).1.cols.length = n.cols.length ∧
    (known.foldl (kssStep σ) (n, sets0)).1.known_solution_sets = n.known_solution_sets ∧
    (known.foldl (kssStep σ) (n, sets0)).1.unsolved = n.unsolved ∧
    (known.foldl (kssStep σ) (n, sets0)).1.width = n.width ∧
    (known.foldl (kssStep σ) (n, sets0)).1.height = n.height ∧
    (known.foldl (kssStep σ) (n, sets0)).1.max_solutions_to_find
      = n.max_solutions_to_find := by
  induction known with
  | nil => intro n sets0; simp
  | cons a t ih =>
      intro n sets0
      rw [List.foldl_cons]
      obtain ⟨h1, h2, h3, h4, h5, h6, h7⟩ :=
        ih (kssStep σ (n, sets0) a).1 (kssStep σ (n, sets0) a).2
      obtain ⟨g1, g2, g3, g4, g5, g6, g7⟩ :=
        setSeq_fields n a.1 a.2.1 (prune_line σ (getSeq n a.1 a.2.1))
      exact ⟨by rw [h1]; exact g1, by rw [h2]; exact g2, by rw [h3]; exact g3,
        by rw [h4]; exact g4, by rw [h5]; exact g5, by rw [h6]; exact g6,
        by rw [h7]; exact g7⟩

theorem kss_fold_lineCount (σ : Shuffle) (known : List (LineType × Nat × Int))
    (n : Nonogram) (sets0 : List (LineType × Nat × Int)) (lt : LineType) :
    lineCount (known.foldl (kssStep σ) (n, sets0)).1 lt = lineCount n lt := by
  obtain ⟨h1, h2, _⟩ := kss_fold_fields σ known n sets0
  cases lt <;> simp [lineCount, h1, h2]

theorem kss_fold_untouched (σ : Shuffle) (known : List (LineType × Nat × Int)) :
    ∀ (n : Nonogram) (sets0 : List (LineType × Nat × Int)) (lt : LineType) (idx : Nat),
    (lt, idx) ∉ known.map (fun e => (e.1, e.2.1)) →
    getSeq (known.foldl (kssStep σ) (n, sets0)).1 lt idx = getSeq n lt idx := by
  induction known with
  | nil => intro n sets0 lt idx _; rfl
  | cons a t ih =>
      intro n sets0 lt idx hmem
      rw [List.map_cons, List.mem_cons] at hmem
      push_neg at hmem
      rw [List.foldl_cons]
      rw [ih _ _ lt idx hmem.2]
      exact getSeq_setSeq_ne n a.1 lt a.2.1 idx _ (by
        intro hc
        exact hmem.1 (by rw [← hc.1, ← hc.2]))

theorem kss_fold_touched (σ : Shuffle) (known : List (LineType × Nat × Int)) :
    ∀ (n : Nonogram) (sets0 : List (LineType × Nat × Int)),
    (∀ e ∈ known, e.2.1 < lineCount n e.1) →
    ((known.map (fun e => (e.1, e.2.1))).Nodup) →
    ∀ e ∈ known, getSeq (known.foldl (kssStep σ) (n, sets0)).1 e.1 e.2.1
        = prune_line σ (getSeq n e.1 e.2.1) := by
  induction known with
  | nil => intro n sets0 _ _ e he; simp at he
  | cons a t ih =>
      intro n sets0 hval hnd e he
      rw [List.map_cons, List.nodup_cons] at hnd
      rw [List.foldl_cons]
      rcases List.mem_cons.mp he with rfl | hmem
      · rw [kss_fold_untouched σ t _ _ e.1 e.2.1 hnd.1]
        exact getSeq_setSeq_same n e.1 e.2.1 _ (hval e (List.mem_cons_self _ _))
      · rw [ih _ _ (fun f hf => by
            rw [kssStep_lineCount]
            exact hval f (List.mem_cons_of_mem a hf)) hnd.2 e hmem]
        congr 1
        show getSeq (kssStep σ (n, sets0) a).1 e.1 e.2.1 = getSeq n e.1 e.2.1
        simp only [kssStep]
        apply getSeq_setSeq_ne
        intro hc
        apply hnd.1
        rw [List.mem_map]
        exact ⟨e, hmem, by rw [hc.1, hc.2]⟩

theorem kss_fold_sets (σ : Shuffle) (known : List (LineType × Nat × Int)) :
    ∀ (n : Nonogram) (sets0 : List (LineType × Nat × Int)),
    (∀ e ∈ known, e.2.1 < lineCount n e.1) →
    ((known.map (fun e => (e.1, e.2.1))).Nodup) →
    (known.foldl (kssStep σ) (n, sets0)).2
      = sets0 ++ known.map (fun e =>
          (e.1, e.2.1, (prune_line σ (getSeq n e.1 e.2.1)).solutions_possible)) := by
  induction known with
  | nil => intro n sets0 _ _; simp
  | cons a t ih =>
      intro n sets0 hval hnd
      rw [List.map_cons, List.nodup_cons] at hnd
      rw [List.foldl_cons]
      rw [ih _ _ (fun f hf => by
            rw [kssStep_lineCount]
            exact hval f (List.mem_cons_of_mem a hf)) hnd.2]
      show (sets0 ++ [(a.1, a.2.1, (prune_line σ (getSeq n a.1 a.2.1)).solutions_possible)])
          ++ _ = _
      rw [List.map_cons, List.append_assoc, List.singleton_append]
      congr 2
      apply List.map_congr_left
      intro f hf
      have hne : getSeq (setSeq n a.1 a.2.1 (prune_line σ (getSeq n a.1 a.2.1))) f.1 f.2.1
          = getSeq n f.1 f.2.1 := by
        apply getSeq_setSeq_ne
        intro hc
        apply hnd.1
        rw [List.mem_map]
        exact ⟨f, hf, by rw [hc.1, hc.2]⟩
      show (f.1, f.2.1, (prune_line σ (getSeq (setSeq n a.1 a.2.1 _) f.1 f.2.1)).solutions_possible)
          = _
      rw [hne]

theorem prune_line_spec (σ : Shuffle) (hσ : ∀ l, List.Perm (σ l) l)
    (seq : Sequence) (sl : List (List Char)) (hsl : seq.solutions = some sl) :
    (∀ s, s ∈ ((prune_line σ seq).solutions.getD [])
        ↔ (s ∈ sl ∧ ¬ hasConflict seq.value s = true)) ∧
    (prune_line σ seq).solutions_possible
      = seq.solutions_possible
        - (((sl.filter (fun s => hasConflict seq.value s)).dedup).length : Int) ∧
    (prune_line σ seq).value = seq.value ∧
    (prune_line σ seq).clue = seq.clue ∧
    (prune_line σ seq).length = seq.length := by
  unfold prune_line
  rw [hsl]
  simp only [Option.getD_some]
  refine ⟨?_, by trivial, by trivial, by trivial, by trivial⟩
  intro s
  rw [(hσ _).mem_iff, List.mem_filter, List.mem_dedup]
  simp

theorem mem_insertByCount (x y : LineType × Nat × Int) :
    ∀ l, y ∈ insertByCount x l ↔ y = x ∨ y ∈ l := by
  intro l
  induction l with
  | nil => simp [insertByCount]
  | cons f t ih =>
      unfold insertByCount
      split_ifs with hle
      · rw [List.mem_cons, ih, List.mem_cons]
        tauto
      · rw [List.mem_cons, List.mem_cons]

theorem insertByCount_perm (x : LineType × Nat × Int) :
    ∀ l, List.Perm (insertByCount x l) (x :: l) := by
  intro l
  induction l with
  | nil => simp [insertByCount]
  | cons f t ih =>
      unfold insertByCount
      split_ifs with hle
      · exact ((ih.cons f).trans (List.Perm.swap x f t))
      · exact List.Perm.refl _

theorem foldl_insertByCount_perm (l : List (LineType × Nat × Int)) :
    ∀ acc, List.Perm (l.foldl (fun a e => insertByCount e a) acc) (acc ++ l) := by
  induction l with
  | nil => intro acc; simp
  | cons e t ih =>
      intro acc
      rw [List.foldl_cons]
      refine (ih (insertByCount e acc)).trans ?_
      refine (List.Perm.append_right t (insertByCount_perm e acc)).trans ?_
      exact List.perm_middle.symm

theorem sortByCount_perm (l : List (LineType × Nat × Int)) :
    List.Perm (sortByCount l) l := by
  unfold sortByCount
  simpa using foldl_insertByCount_perm l []

theorem pairwise_insertByCount (x : LineType × Nat × Int) :
    ∀ l, List.Pairwise (fun a b => a.2.2 ≤ b.2.2) l →
    List.Pairwise (fun a b => a.2.2 ≤ b.2.2) (insertByCount x l) := by
  intro l
  induction l with
  | nil => intro _; simp [insertByCount]
  | cons f t ih =>
      intro hp
      rw [List.pairwise_cons] at hp
      unfold insertByCount
      split_ifs with hle
      · rw [List.pairwise_cons]
        refine ⟨?_, ih hp.2⟩
        intro y hy
        rcases (mem_insertByCount x y t).mp hy with rfl | hyt
        · exact hle
        · exact hp.1 y hyt
      · rw [List.pairwise_cons]
        refine ⟨?_, List.pairwise_cons.mpr hp⟩
        intro y hy
        rcases List.mem_cons.mp hy with rfl | hyt
        · omega
        · exact le_trans (by omega) (hp.1 y hyt)

theorem sortByCount_sorted (l : List (LineType × Nat × Int)) :
    List.Pairwise (fun a b => a.2.2 ≤ b.2.2) (sortByCount l) := by
  unfold sortByCount
  have : ∀ acc, List.Pairwise (fun (a b : LineType × Nat × Int) => a.2.2 ≤ b.2.2) acc →
      List.Pairwise (fun a b => a.2.2 ≤ b.2.2)
        (l.foldl (fun a e => insertByCount e a) acc) := by
    induction l with
    | nil => intro acc h; simpa using h
    | cons e t ih =>
        intro acc h
        rw [List.foldl_cons]
        exact ih _ (pairwise_insertByCount e acc h)
  exact this [] (by simp)

theorem insertByCount_append (x : LineType × Nat × Int) :
    ∀ l, (∀ y ∈ l, y.2.2 ≤ x.2.2) → insertByCount x l = l ++ [x] := by
  intro l
  induction l with
  | nil => intro _; simp [insertByCount]
  | cons f t ih =>
      intro h
      unfold insertByCount
      rw [if_pos (h f (List.mem_cons_self f t)), ih (fun y hy => h y (List.mem_cons_of_mem f hy))]
      simp

theorem sortByCount_of_sorted (l : List (LineType × Nat × Int))
    (h : List.Pairwise (fun a b => a.2.2 ≤ b.2.2) l) : sortByCount l = l := by
  unfold sortByCount
  have key : ∀ (m acc : List (LineType × Nat × Int)),
      List.Pairwise (fun a b => a.2.2 ≤ b.2.2) (acc ++ m) →
      m.foldl (fun a e => insertByCount e a) acc = acc ++ m := by
    intro m
    induction m with
    | nil => intro acc _; simp
    | cons e t ih =>
        intro acc hp
        rw [List.foldl_cons]
        have hacc : ∀ y ∈ acc, y.2.2 ≤ e.2.2 := by
          intro y hy
          have := (List.pairwise_append.mp hp).2.2
          exact this y hy e (List.mem_cons_self e t)
        rw [insertByCount_append e acc hacc]
        rw [ih (acc ++ [e]) (by simpa using hp)]
        simp
  simpa using key l [] (by simpa using h)

theorem set_getD_self (l : List Sequence) (i : Nat) (h : i < l.length) :
    l.set i (l.getD i dummySeq) = l := by
  rw [List.getD_eq_getElem l dummySeq h]
  apply List.ext_getElem?
  intro j
  by_cases hj : j = i
  · subst hj
    rw [List.getElem?_set_eq_of_lt _ h, List.getElem?_eq_getElem h]
  · rw [List.getElem?_set_ne (by omega)]

theorem setSeq_getSeq_self (n : Nonogram) (lt : LineType) (idx : Nat)
    (h : idx < lineCount n lt) : setSeq n lt idx (getSeq n lt idx) = n := by
  cases lt
  · show { n with rows := n.rows.set idx (n.rows.getD idx dummySeq) } = n
    rw [set_getD_self n.rows idx h]
  · show { n with cols := n.cols.set idx (n.cols.getD idx dummySeq) } = n
    rw [set_getD_self n.cols idx h]

theorem kss_fold_id (σ : Shuffle) (known : List (LineType × Nat × Int)) :
    ∀ (n : Nonogram) (sets0 : List (LineType × Nat × Int)),
    (∀ e ∈ known, e.2.1 < lineCount n e.1) →
    (∀ e ∈ known, prune_line σ (getSeq n e.1 e.2.1) = getSeq n e.1 e.2.1) →
    (known.foldl (kssStep σ) (n, sets0)).1 = n := by
  induction known with
  | nil => intro n sets0 _ _; rfl
  | cons a t ih =>
      intro n sets0 hval hid
      rw [List.foldl_cons]
      have hstep : (kssStep σ (n, sets0) a).1 = n := by
        show setSeq n a.1 a.2.1 (prune_line σ (getSeq n a.1 a.2.1)) = n
        rw [hid a (List.mem_cons_self a t),
          setSeq_getSeq_self n a.1 a.2.1 (hval a (List.mem_cons_self a t))]
      have h2 := ih (kssStep σ (n, sets0) a).1 (kssStep σ (n, sets0) a).2
        (by rw [hstep]; exact fun e he => hval e (List.mem_cons_of_mem a he))
        (by rw [hstep]; exact fun e he => hid e (List.mem_cons_of_mem a he))
      exact h2.trans hstep

theorem prune_line_id_of_clean (seq : Sequence) (l1 : List (List Char))
    (h : seq.solutions = some l1) (hnd : l1.Nodup)
    (hcons : ∀ s ∈ l1, hasConflict seq.value s = false) :
    prune_line id seq = seq := by
  unfold prune_line
  rw [h]
  simp only [Option.getD_some, id]
  have hfilter : l1.filter (fun s => hasConflict seq.value s) = [] :=
    List.filter_eq_nil.mpr (fun s hs => by rw [hcons s hs]; exact Bool.false_ne_true)
  have hkeep : l1.dedup.filter (fun s => !(hasConflict seq.value s)) = l1 := by
    rw [List.dedup_eq_self.mpr hnd]
    apply List.filter_eq_self.mpr
    intro s hs
    rw [hcons s hs]
    rfl
  rw [hfilter, hkeep]
  cases seq with
  | mk len clue value sp sols =>
      simp only at h
      subst h
      simp

theorem prune_line_solutions (σ : Shuffle) (seq : Sequence) (sl : List (List Char))
    (h : seq.solutions = some sl) :
    (prune_line σ seq).solutions
      = some (σ ((sl.dedup).filter (fun s => !(hasConflict seq.value s)))) := by
  unfold prune_line
  rw [h]
  rfl

theorem prune_line_value (σ : Shuffle) (seq : Sequence) :
    (prune_line σ seq).value = seq.value := rfl

theorem lineCount_update_kss (τ : Shuffle) (n : Nonogram) (lt : LineType) :
    lineCount (update_known_solution_sets τ n) lt = lineCount n lt := by
  show lineCount (n.known_solution_sets.foldl (kssStep τ) (n, [])).1 lt = _
  exact kss_fold_lineCount τ n.known_solution_sets n [] lt

theorem getSeq_update_kss (τ : Shuffle) (n : Nonogram) (lt : LineType) (idx : Nat) :
    getSeq (update_known_solution_sets τ n) lt idx
      = getSeq (n.known_solution_sets.foldl (kssStep τ) (n, [])).1 lt idx := rfl

theorem known_update_kss (τ : Shuffle) (n : Nonogram) :
    (update_known_solution_sets τ n).known_solution_sets
      = sortByCount (n.known_solution_sets.foldl (kssStep τ) (n, [])).2 := rfl

/-- C9: `update_known_solution_sets` removes from each tracked line's
stored solutions exactly the completions that conflict with a non-Unknown
cell of the current value (so it never adds one), decrements
`solutions_possible` by exactly the number of distinct removed completions,
leaves the line value unchanged, rebuilds `known_solution_sets` sorted
ascending by the updated counts, and — with the in-process set order
(`id`) — running it twice on an unchanged board equals running it once. -/
theorem update_known_solution_sets_spec (σ : Shuffle) (n : Nonogram)
    (hσ : ∀ l, List.Perm (σ l) l)
    (hnd : (n.known_solution_sets.map (fun e => (e.1, e.2.1))).Nodup)
    (hval : ∀ e ∈ n.known_solution_sets, e.2.1 < lineCount n e.1)
    (hsol : ∀ e ∈ n.known_solution_sets,
      ∃ sl, (getSeq n e.1 e.2.1).solutions = some sl) :
    (∀ e ∈ n.known_solution_sets, ∀ sl, (getSeq n e.1 e.2.1).solutions = some sl →
      (∀ s, s ∈ ((getSeq (update_known_solution_sets σ n) e.1 e.2.1).solutions.getD [])
          ↔ (s ∈ sl ∧ ¬ hasConflict (getSeq n e.1 e.2.1).value s = true)) ∧
      (getSeq (update_known_solution_sets σ n) e.1 e.2.1).solutions_possible
        = (getSeq n e.1 e.2.1).solutions_possible
          - (((sl.filter (fun s =>
              hasConflict (getSeq n e.1 e.2.1).value s)).dedup).length : Int) ∧
      (getSeq (update_known_solution_sets σ n) e.1 e.2.1).value
        = (getSeq n e.1 e.2.1).value) ∧
    List.Pairwise (fun a b => a.2.2 ≤ b.2.2)
      (update_known_solution_sets σ n).known_solution_sets ∧
    update_known_solution_sets id (update_known_solution_sets id n)
      = update_known_solution_sets id n := by
  refine ⟨?_, ?_, ?_⟩
  · intro e he sl hsl
    have htouch := kss_fold_touched σ n.known_solution_sets n [] hval hnd e he
    have hps := prune_line_spec σ hσ (getSeq n e.1 e.2.1) sl hsl
    rw [getSeq_update_kss σ n e.1 e.2.1, htouch]
    exact ⟨hps.1, hps.2.1, hps.2.2.1⟩
  · rw [known_update_kss]
    exact sortByCount_sorted _
  · have hidp : ∀ l : List (List Char), List.Perm (id l) l := fun l => List.Perm.refl l
    set n1 := update_known_solution_sets id n with hn1
    have hkn1 : n1.known_solution_sets
        = sortByCount (n.known_solution_sets.map (fun e =>
            (e.1, e.2.1, (prune_line id (getSeq n e.1 e.2.1)).solutions_possible))) := by
      rw [hn1, known_update_kss,
        kss_fold_sets id n.known_solution_sets n [] hval hnd]
      simp
    have hperm1 : List.Perm n1.known_solution_sets
        (n.known_solution_sets.map (fun e =>
          (e.1, e.2.1, (prune_line id (getSeq n e.1 e.2.1)).solutions_possible))) := by
      rw [hkn1]
      exact sortByCount_perm _
    have hmemdec : ∀ e1 ∈ n1.known_solution_sets, ∃ e ∈ n.known_solution_sets,
        e1 = (e.1, e.2.1, (prune_line id (getSeq n e.1 e.2.1)).solutions_possible) := by
      intro e1 he1
      obtain ⟨e, heN, heq⟩ := List.mem_map.mp (hperm1.mem_iff.mp he1)
      exact ⟨e, heN, heq.symm⟩
    have hlc1 : ∀ lt, lineCount n1 lt = lineCount n lt := by
      intro lt
      rw [hn1]
      exact lineCount_update_kss id n lt
    have hval1 : ∀ e1 ∈ n1.known_solution_sets, e1.2.1 < lineCount n1 e1.1 := by
      intro e1 he1
      obtain ⟨e, heN, rfl⟩ := hmemdec e1 he1
      rw [hlc1]
      exact hval e heN
    have hkeys1 : (n1.known_solution_sets.map (fun e => (e.1, e.2.1))).Nodup := by
      have hp2 := hperm1.map (fun e => (e.1, e.2.1))
      rw [List.map_map] at hp2
      have : (n.known_solution_sets.map ((fun e : LineType × Nat × Int => (e.1, e.2.1))
          ∘ (fun e => (e.1, e.2.1,
            (prune_line id (getSeq n e.1 e.2.1)).solutions_possible)))) =
          n.known_solution_sets.map (fun e => (e.1, e.2.1)) := by
        apply List.map_congr_left
        intro f _
        rfl
      rw [this] at hp2
      exact hp2.nodup_iff.mpr hnd
    have hg1 : ∀ e ∈ n.known_solution_sets,
        getSeq n1 e.1 e.2.1 = prune_line id (getSeq n e.1 e.2.1) := by
      intro e heN
      rw [hn1, getSeq_update_kss]
      exact kss_fold_touched id n.known_solution_sets n [] hval hnd e heN
    have hid1 : ∀ e1 ∈ n1.known_solution_sets,
        prune_line id (getSeq n1 e1.1 e1.2.1) = getSeq n1 e1.1 e1.2.1 := by
      intro e1 he1
      obtain ⟨e, heN, rfl⟩ := hmemdec e1 he1
      obtain ⟨sl, hsl⟩ := hsol e heN
      have hgs : getSeq n1 e.1 e.2.1 = prune_line id (getSeq n e.1 e.2.1) := hg1 e heN
      have hsols1 : (getSeq n1 e.1 e.2.1).solutions
          = some ((sl.dedup).filter (fun s =>
              !(hasConflict (getSeq n e.1 e.2.1).value s))) := by
        rw [hgs, prune_line_solutions id _ sl hsl]
        rfl
      apply prune_line_id_of_clean _ _ hsols1
      · exact List.Nodup.filter _ (List.nodup_dedup sl)
      · intro s hs
        rw [List.mem_filter] at hs
        have hv1 : (getSeq n1 e.1 e.2.1).value = (getSeq n e.1 e.2.1).value := by
          rw [hgs, prune_line_value]
        rw [hv1]
        revert hs
        cases hasConflict (getSeq n e.1 e.2.1).value s <;> simp
    show update_known_solution_sets id n1 = n1
    have hfold2 : (n1.known_solution_sets.foldl (kssStep id) (n1, [])).1 = n1 :=
      kss_fold_id id n1.known_solution_sets n1 [] hval1 hid1
    have hsets2 : (n1.known_solution_sets.foldl (kssStep id) (n1, [])).2
        = n1.known_solution_sets := by
      rw [kss_fold_sets id n1.known_solution_sets n1 [] hval1 hkeys1]
      rw [List.nil_append]
      have : ∀ e1 ∈ n1.known_solution_sets,
          (e1.1, e1.2.1, (prune_line id (getSeq n1 e1.1 e1.2.1)).solutions_possible)
            = e1 := by
        intro e1 he1
        rw [hid1 e1 he1]
        obtain ⟨e, heN, rfl⟩ := hmemdec e1 he1
        rw [hg1 e heN]
      calc n1.known_solution_sets.map (fun e1 =>
            (e1.1, e1.2.1, (prune_line id (getSeq n1 e1.1 e1.2.1)).solutions_possible))
          = n1.known_solution_sets.map (fun e1 => e1) := List.map_congr_left this
        _ = n1.known_solution_sets := List.map_id _
    have hsorted1 : List.Pairwise (fun a b => a.2.2 ≤ b.2.2) n1.known_solution_sets := by
      rw [hkn1]
      exact sortByCount_sorted _
    rw [show update_known_solution_sets id n1
        = { (n1.known_solution_sets.foldl (kssStep id) (n1, [])).1 with
            known_solution_sets :=
              sortByCount (n1.known_solution_sets.foldl (kssStep id) (n1, [])).2 }
      from rfl]
    rw [hfold2, hsets2, sortByCount_of_sorted _ hsorted1]

def kssWitnessNono : Nonogram :=
  { max_solutions_to_find := 50
  , width := 2
  , height := 2
  , rows := [⟨2, [1], ['x','x'], 2, some [['1','0'],['0','1']]⟩,
             ⟨2, [1], ['x','x'], 2, some [['1','0'],['0','1']]⟩]
  , cols := [⟨2, [1], ['x','x'], 2, some [['1','0'],['0','1']]⟩,
             ⟨2, [1], ['x','x'], 2, some [['1','0'],['0','1']]⟩]
  , known_solution_sets := [(LineType.col, 0, 2), (LineType.col, 1, 2),
                            (LineType.row, 0, 2), (LineType.row, 1, 2)]
  , unsolved := [(0,0),(0,1),(1,0),(1,1)] }

theorem update_known_solution_sets_spec_witness :
    update_known_solution_sets id (update_known_solution_sets id kssWitnessNono)
      = update_known_solution_sets id kssWitnessNono :=
  (update_known_solution_sets_spec id kssWitnessNono (fun l => List.Perm.refl l)
    (by decide) (by decide)
    (by intro e he; fin_cases he <;> exact ⟨_, rfl⟩)).2.2

/-! ### Board invariant: row/column agreement and the unsolved set (C4) -/

def lineLen (n : Nonogram) (lt : LineType) : Nat :=
  match lt with
  | .row => n.width
  | .col => n.height

def rowVal (n : Nonogram) (r c : Nat) : Char := (getSeq n .row r).value.getD c 'x'

def colVal (n : Nonogram) (c r : Nat) : Char := (getSeq n .col c).value.getD r 'x'

/-- Shape facts of a well-formed board: `height` rows of width `width`,
`width` columns of height `height`, with matching stored `length` fields. -/
def WellShaped (n : Nonogram) : Prop :=
  n.rows.length = n.height ∧ n.cols.length = n.width ∧
  (∀ r < n.height, (getSeq n .row r).value.length = n.width ∧
    (getSeq n .row r).length = n.width) ∧
  (∀ c < n.width, (getSeq n .col c).value.length = n.height ∧
    (getSeq n .col c).length = n.height)

/-- `sequences["row"][r].value[c] == sequences["col"][c].value[r]`. -/
def Agrees (n : Nonogram) : Prop :=
  ∀ r < n.height, ∀ c < n.width, rowVal n r c = colVal n c r

/-- The `unsolved` set holds exactly the coordinates of Unknown cells. -/
def UnsolvedSync (n : Nonogram) : Prop :=
  (∀ p ∈ n.unsolved, p.1 < n.height ∧ p.2 < n.width ∧ rowVal n p.1 p.2 = 'x') ∧
  (∀ r < n.height, ∀ c < n.width, rowVal n r c = 'x' → (r, c) ∈ n.unsolved)

def BoardInv (n : Nonogram) : Prop :=
  WellShaped n ∧ Agrees n ∧ UnsolvedSync n ∧ n.unsolved.Nodup

theorem strSet_length (s : List Char) (i : Nat) (c : Char) (h : i < s.length) :
    (strSet s i c).length = s.length := by
  rw [strSet_eq_set s i c h, List.length_set]

theorem strSet_getD_eq (s : List Char) (i : Nat) (c : Char) (h : i < s.length) :
    (strSet s i c).getD i 'x' = c := by
  rw [List.getD_eq_getElem?_getD, strSet_getElem?_eq s i c h]
  rfl

theorem strSet_getD_ne (s : List Char) (i : Nat) (c : Char) (h : i < s.length)
    (j : Nat) (hj : j ≠ i) : (strSet s i c).getD j 'x' = s.getD j 'x' := by
  rw [List.getD_eq_getElem?_getD, strSet_getElem?_ne s i c h j hj,
    ← List.getD_eq_getElem?_getD]

theorem pySetAdd_mem (l : List (Nat × Nat)) (q p : Nat × Nat) :
    p ∈ pySetAdd l q ↔ p ∈ l ∨ p = q := by
  unfold pySetAdd
  split
  · constructor
    · exact Or.inl
    · rintro (h | rfl)
      · exact h
      · assumption
  · simp [List.mem_append]

theorem pySetAdd_nodup (l : List (Nat × Nat)) (q : Nat × Nat) (h : l.Nodup) :
    (pySetAdd l q).Nodup := by
  unfold pySetAdd
  split
  · exact h
  · next hq => simp [List.nodup_append, h, hq]

theorem update_unsolved_fields (n : Nonogram) (pos : Nat × Nat) (v : Char) :
    (update_unsolved n pos v).rows = n.rows ∧
    (update_unsolved n pos v).cols = n.cols ∧
    (update_unsolved n pos v).width = n.width ∧
    (update_unsolved n pos v).height = n.height ∧
    (update_unsolved n pos v).known_solution_sets = n.known_solution_sets ∧
    (update_unsolved n pos v).max_solutions_to_find = n.max_solutions_to_find := by
  unfold update_unsolved
  split
  · exact ⟨rfl, rfl, rfl, rfl, rfl, rfl⟩
  split
  · exact ⟨rfl, rfl, rfl, rfl, rfl, rfl⟩
  · exact ⟨rfl, rfl, rfl, rfl, rfl, rfl⟩

theorem getSeq_update_unsolved (n : Nonogram) (pos : Nat × Nat) (v : Char)
    (lt : LineType) (i : Nat) :
    getSeq (update_unsolved n pos v) lt i = getSeq n lt i := by
  obtain ⟨hr, hc, -⟩ := update_unsolved_fields n pos v
  cases lt <;> simp [getSeq, hr, hc]

theorem update_unsolved_mem (n : Nonogram) (pos : Nat × Nat) (v : Char)
    (hnd : n.unsolved.Nodup) (p : Nat × Nat) :
    (p ∈ (update_unsolved n pos v).unsolved ↔
      (if p = pos then v = 'x' else p ∈ n.unsolved)) := by
  unfold update_unsolved
  by_cases hpv : v = 'x'
  · rw [if_pos hpv]
    show p ∈ pySetAdd n.unsolved pos ↔ _
    rw [pySetAdd_mem]
    by_cases hpp : p = pos
    · simp [hpp, hpv]
    · simp [hpp]
  · rw [if_neg hpv]
    split
    · next hin =>
        show p ∈ n.unsolved.erase pos ↔ _
        rw [List.Nodup.mem_erase_iff hnd]
        by_cases hpp : p = pos
        · simp [hpp, hpv]
        · simp [hpp]
    · next hout =>
        by_cases hpp : p = pos
        · subst hpp
          simp [hout, hpv]
        · simp [hpp]

theorem update_unsolved_nodup (n : Nonogram) (pos : Nat × Nat) (v : Char)
    (hnd : n.unsolved.Nodup) : (update_unsolved n pos v).unsolved.Nodup := by
  unfold update_unsolved
  split
  · exact pySetAdd_nodup _ _ hnd
  split
  · exact hnd.erase _
  · exact hnd

theorem setSeqValue_fields (n : Nonogram) (lt : LineType) (idx : Nat) (w : List Char) :
    (setSeqValue n lt idx w).rows.length = n.rows.length ∧
    (setSeqValue n lt idx w).cols.length = n.cols.length ∧
    (setSeqValue n lt idx w).known_solution_sets = n.known_solution_sets ∧
    (setSeqValue n lt idx w).unsolved = n.unsolved ∧
    (setSeqValue n lt idx w).width = n.width ∧
    (setSeqValue n lt idx w).height = n.height ∧
    (setSeqValue n lt idx w).max_solutions_to_find = n.max_solutions_to_find :=
  setSeq_fields n lt idx _

theorem getSeq_setSeqValue_same (n : Nonogram) (lt : LineType) (idx : Nat)
    (w : List Char) (h : idx < lineCount n lt) :
    getSeq (setSeqValue n lt idx w) lt idx = { getSeq n lt idx with value := w } :=
  getSeq_setSeq_same n lt idx _ h

theorem getSeq_setSeqValue_ne (n : Nonogram) (lt lt' : LineType) (idx idx' : Nat)
    (w : List Char) (h : ¬ (lt = lt' ∧ idx = idx')) :
    getSeq (setSeqValue n lt idx w) lt' idx' = getSeq n lt' idx' :=
  getSeq_setSeq_ne n lt lt' idx idx' _ h

theorem setSeqValue_lineCount (n : Nonogram) (lt : LineType) (idx : Nat)
    (w : List Char) (lt' : LineType) :
    lineCount (setSeqValue n lt idx w) lt' = lineCount n lt' :=
  setSeq_lineCount n lt idx _ lt'

theorem update_at_pos_none_eq (n : Nonogram) (pos : Nat × Nat) (v : Char) :
    update_at_pos n pos v none
      = setSeqValue (setSeqValue (update_unsolved n pos v) .row pos.1
          (strSet (getSeq n .row pos.1).value pos.2 v)) .col pos.2
          (strSet (getSeq n .col pos.2).value pos.1 v) := by
  simp [update_at_pos]

theorem update_at_pos_some_row_eq (n : Nonogram) (pos : Nat × Nat) (v : Char) :
    update_at_pos n pos v (some .row)
      = setSeqValue (update_unsolved n pos v) .col pos.2
          (strSet (getSeq n .col pos.2).value pos.1 v) := by
  simp [update_at_pos]

theorem update_at_pos_some_col_eq (n : Nonogram) (pos : Nat × Nat) (v : Char) :
    update_at_pos n pos v (some .col)
      = setSeqValue (update_unsolved n pos v) .row pos.1
          (strSet (getSeq n .row pos.1).value pos.2 v) := by
  simp [update_at_pos]

theorem update_at_pos_none_getSeq (n : Nonogram) (pos : Nat × Nat) (v : Char)
    (hb1 : pos.1 < n.rows.length) (hb2 : pos.2 < n.cols.length) :
    (∀ r, r ≠ pos.1 → getSeq (update_at_pos n pos v none) .row r = getSeq n .row r) ∧
    getSeq (update_at_pos n pos v none) .row pos.1
      = { getSeq n .row pos.1 with value := strSet (getSeq n .row pos.1).value pos.2 v } ∧
    (∀ c, c ≠ pos.2 → getSeq (update_at_pos n pos v none) .col c = getSeq n .col c) ∧
    getSeq (update_at_pos n pos v none) .col pos.2
      = { getSeq n .col pos.2 with value := strSet (getSeq n .col pos.2).value pos.1 v } ∧
    (update_at_pos n pos v none).width = n.width ∧
    (update_at_pos n pos v none).height = n.height ∧
    (update_at_pos n pos v none).rows.length = n.rows.length ∧
    (update_at_pos n pos v none).cols.length = n.cols.length ∧
    (update_at_pos n pos v none).unsolved = (update_unsolved n pos v).unsolved := by
  rw [update_at_pos_none_eq]
  obtain ⟨f1r, f1c, f1w, f1h, -, -⟩ := update_unsolved_fields n pos v
  refine ⟨?_, ?_, ?_, ?_, ?_, ?_, ?_, ?_, ?_⟩
  · intro r hr
    rw [getSeq_setSeqValue_ne _ _ _ _ _ _ (by simp)]
    rw [getSeq_setSeqValue_ne _ _ _ _ _ _ (by intro hand; exact hr hand.2.symm)]
    exact getSeq_update_unsolved n pos v .row r
  · rw [getSeq_setSeqValue_ne _ _ _ _ _ _ (by simp)]
    rw [getSeq_setSeqValue_same _ _ _ _ (by
      show pos.1 < (update_unsolved n pos v).rows.length
      rw [f1r]
      exact hb1)]
    rw [getSeq_update_unsolved n pos v .row pos.1]
  · intro c hc
    rw [getSeq_setSeqValue_ne _ _ _ _ _ _ (by intro hand; exact hc hand.2.symm)]
    rw [getSeq_setSeqValue_ne _ _ _ _ _ _ (by simp)]
    exact getSeq_update_unsolved n pos v .col c
  · rw [getSeq_setSeqValue_same _ _ _ _ (by
      rw [setSeqValue_lineCount]
      show pos.2 < (update_unsolved n pos v).cols.length
      rw [f1c]
      exact hb2)]
    rw [getSeq_setSeqValue_ne _ _ _ _ _ _ (by simp)]
    rw [getSeq_update_unsolved n pos v .col pos.2]
  · rw [(setSeqValue_fields _ _ _ _).2.2.2.2.1, (setSeqValue_fields _ _ _ _).2.2.2.2.1]
    exact f1w
  · rw [(setSeqValue_fields _ _ _ _).2.2.2.2.2.1, (setSeqValue_fields _ _ _ _).2.2.2.2.2.1]
    exact f1h
  · rw [(setSeqValue_fields _ _ _ _).1, (setSeqValue_fields _ _ _ _).1, f1r]
  · rw [(setSeqValue_fields _ _ _ _).2.1, (setSeqValue_fields _ _ _ _).2.1, f1c]
  · rw [(setSeqValue_fields _ _ _ _).2.2.2.1, (setSeqValue_fields _ _ _ _).2.2.2.1]

theorem update_at_pos_inv (n : Nonogram) (pos : Nat × Nat) (v : Char)
    (hI : BoardInv n) (h1 : pos.1 < n.height) (h2 : pos.2 < n.width) :
    BoardInv (update_at_pos n pos v none) := by
  obtain ⟨⟨hrh, hcw, hrlen, hclen⟩, hAg, ⟨hU1, hU2⟩, hnd⟩ := hI
  have hRlen : (getSeq n .row pos.1).value.length = n.width := (hrlen pos.1 h1).1
  have hClen : (getSeq n .col pos.2).value.length = n.height := (hclen pos.2 h2).1
  have hb1 : pos.1 < n.rows.length := by rw [hrh]; exact h1
  have hb2 : pos.2 < n.cols.length := by rw [hcw]; exact h2
  obtain ⟨gRo, gRe, gCo, gCe, gw, gh, grl, gcl, gu⟩ :=
    update_at_pos_none_getSeq n pos v hb1 hb2
  have hb2R : pos.2 < (getSeq n .row pos.1).value.length := by rw [hRlen]; exact h2
  have hb1C : pos.1 < (getSeq n .col pos.2).value.length := by rw [hClen]; exact h1
  -- pointwise cell values of the updated board
  have hrv : ∀ r c, rowVal (update_at_pos n pos v none) r c
      = if r = pos.1 ∧ c = pos.2 then v else rowVal n r c := by
    intro r c
    by_cases hr : r = pos.1
    · subst hr
      rw [rowVal, gRe]
      by_cases hc : c = pos.2
      · subst hc
        simp only [and_self, if_pos]
        exact strSet_getD_eq _ _ _ hb2R
      · rw [if_neg (by intro hand; exact hc hand.2)]
        exact strSet_getD_ne _ _ _ hb2R c hc
    · rw [if_neg (by intro hand; exact hr hand.1)]
      rw [rowVal, gRo r hr]
      rfl
  have hcv : ∀ c r, colVal (update_at_pos n pos v none) c r
      = if r = pos.1 ∧ c = pos.2 then v else colVal n c r := by
    intro c r
    by_cases hc : c = pos.2
    · subst hc
      rw [colVal, gCe]
      by_cases hr : r = pos.1
      · subst hr
        simp only [and_self, if_pos]
        exact strSet_getD_eq _ _ _ hb1C
      · rw [if_neg (by intro hand; exact hr hand.1)]
        exact strSet_getD_ne _ _ _ hb1C r hr
    · rw [if_neg (by intro hand; exact hc hand.2)]
      rw [colVal, gCo c hc]
      rfl
  refine ⟨⟨?_, ?_, ?_, ?_⟩, ?_, ⟨?_, ?_⟩, ?_⟩
  · rw [grl, gh, hrh]
  · rw [gcl, gw, hcw]
  · intro r hr
    rw [gh] at hr
    rw [gw]
    by_cases hreq : r = pos.1
    · subst hreq
      rw [gRe]
      exact ⟨by rw [strSet_length _ _ _ hb2R]; exact (hrlen pos.1 hr).1,
        (hrlen pos.1 hr).2⟩
    · rw [gRo r hreq]
      exact hrlen r hr
  · intro c hc
    rw [gw] at hc
    rw [gh]
    by_cases hceq : c = pos.2
    · subst hceq
      rw [gCe]
      exact ⟨by rw [strSet_length _ _ _ hb1C]; exact (hclen pos.2 hc).1,
        (hclen pos.2 hc).2⟩
    · rw [gCo c hceq]
      exact hclen c hc
  · intro r hr c hc
    rw [gh] at hr
    rw [gw] at hc
    rw [hrv, hcv]
    by_cases hcase : r = pos.1 ∧ c = pos.2
    · rw [if_pos hcase, if_pos hcase]
    · rw [if_neg hcase, if_neg hcase]
      exact hAg r hr c hc
  · intro p hp
    rw [gu] at hp
    rw [update_unsolved_mem n pos v hnd p] at hp
    rw [gh, gw, hrv]
    by_cases hpp : p = pos
    · subst hpp
      rw [if_pos rfl] at hp
      exact ⟨h1, h2, by rw [if_pos ⟨rfl, rfl⟩]; exact hp⟩
    · rw [if_neg hpp] at hp
      obtain ⟨ha, hb, hc⟩ := hU1 p hp
      refine ⟨ha, hb, ?_⟩
      rw [if_neg ?_]
      · exact hc
      · intro hand
        exact hpp (Prod.ext hand.1 hand.2)
  · intro r hr c hc hx
    rw [gh] at hr
    rw [gw] at hc
    rw [hrv] at hx
    rw [gu, update_unsolved_mem n pos v hnd]
    by_cases hcase : r = pos.1 ∧ c = pos.2
    · rw [if_pos hcase] at hx
      rw [if_pos (Prod.ext hcase.1 hcase.2)]
      exact hx
    · rw [if_neg hcase] at hx
      rw [if_neg (by intro heq; exact hcase ⟨congrArg Prod.fst heq, congrArg Prod.snd heq⟩)]
      exact hU2 r hr c hc hx
  · rw [gu]
    exact update_unsolved_nodup n pos v hnd

theorem update_sequences_eq (n : Nonogram) (pos : Nat × Nat) (ch : Char)
    (h2 : pos.2 < (getSeq n .row pos.1).value.length) :
    update_sequences n pos (strSet (getSeq n .row pos.1).value pos.2 ch)
        (strSet (getSeq n .col pos.2).value pos.1 ch)
      = update_at_pos n pos ch none := by
  rw [update_at_pos_none_eq]
  simp only [update_sequences]
  rw [strSet_getD_eq _ _ _ h2]

theorem update_sequences_inv (n : Nonogram) (pos : Nat × Nat) (ch : Char)
    (newRow newCol : List Char) (hI : BoardInv n)
    (h1 : pos.1 < n.height) (h2 : pos.2 < n.width)
    (hr : newRow = strSet (getSeq n .row pos.1).value pos.2 ch)
    (hc : newCol = strSet (getSeq n .col pos.2).value pos.1 ch) :
    BoardInv (update_sequences n pos newRow newCol) := by
  subst hr
  subst hc
  rw [update_sequences_eq n pos ch (by
    rw [(hI.1.2.2.1 pos.1 h1).1]
    exact h2)]
  exact update_at_pos_inv n pos ch hI h1 h2

theorem setSeqValue_col_rows (n : Nonogram) (i : Nat) (w : List Char) :
    (setSeqValue n .col i w).rows = n.rows := rfl

theorem setSeqValue_row_cols (n : Nonogram) (i : Nat) (w : List Char) :
    (setSeqValue n .row i w).cols = n.cols := rfl

theorem getSeq_row_congr (n m : Nonogram) (h : n.rows = m.rows) (r : Nat) :
    getSeq n .row r = getSeq m .row r := by
  simp [getSeq, h]

theorem getSeq_col_congr (n m : Nonogram) (h : n.cols = m.cols) (c : Nat) :
    getSeq n .col c = getSeq m .col c := by
  simp [getSeq, h]

theorem uss_row_fold (idx : Nat) (newValue : List Char) :
    ∀ (cnt j : Nat) (nn : Nonogram),
    nn.unsolved.Nodup →
    (∀ c, j ≤ c → c < j + cnt → idx < (getSeq nn .col c).value.length) →
    j + cnt ≤ nn.cols.length →
    ((List.range' j cnt).foldl
        (fun m i => update_at_pos m (idx, i) (newValue.getD i 'x') (some .row)) nn).rows
      = nn.rows ∧
    ((List.range' j cnt).foldl
        (fun m i => update_at_pos m (idx, i) (newValue.getD i 'x') (some .row)) nn).width
      = nn.width ∧
    ((List.range' j cnt).foldl
        (fun m i => update_at_pos m (idx, i) (newValue.getD i 'x') (some .row)) nn).height
      = nn.height ∧
    ((List.range' j cnt).foldl
        (fun m i => update_at_pos m (idx, i) (newValue.getD i 'x') (some .row)) nn).cols.length
      = nn.cols.length ∧
    (∀ c, ¬ (j ≤ c ∧ c < j + cnt) →
      getSeq ((List.range' j cnt).foldl
        (fun m i => update_at_pos m (idx, i) (newValue.getD i 'x') (some .row)) nn) .col c
        = getSeq nn .col c) ∧
    (∀ c, j ≤ c → c < j + cnt →
      getSeq ((List.range' j cnt).foldl
        (fun m i => update_at_pos m (idx, i) (newValue.getD i 'x') (some .row)) nn) .col c
        = { getSeq nn .col c with
            value := strSet (getSeq nn .col c).value idx (newValue.getD c 'x') }) ∧
    (∀ p : Nat × Nat, p ∈ ((List.range' j cnt).foldl
        (fun m i => update_at_pos m (idx, i) (newValue.getD i 'x') (some .row)) nn).unsolved ↔
      (if p.1 = idx ∧ j ≤ p.2 ∧ p.2 < j + cnt then newValue.getD p.2 'x' = 'x'
       else p ∈ nn.unsolved)) ∧
    ((List.range' j cnt).foldl
        (fun m i => update_at_pos m (idx, i) (newValue.getD i 'x') (some .row)) nn).unsolved.Nodup := by
  intro cnt
  induction cnt with
  | zero =>
      intro j nn hnd hlen hle
      refine ⟨rfl, rfl, rfl, rfl, fun c _ => rfl, fun c hc1 hc2 => absurd hc2 (by omega),
        fun p => ?_, hnd⟩
      rw [if_neg (by omega)]
      exact Iff.rfl
  | succ k ih =>
      intro j nn hnd hlen hle
      have hstep : List.range' j (k + 1) = j :: List.range' (j + 1) k := List.range'_succ j k 1
      rw [hstep, List.foldl_cons]
      have hjlt : j < nn.cols.length := by omega
      have hjv : idx < (getSeq nn .col j).value.length := hlen j (le_refl j) (by omega)
      -- the first step
      have hone : update_at_pos nn (idx, j) (newValue.getD j 'x') (some .row)
          = setSeqValue (update_unsolved nn (idx, j) (newValue.getD j 'x')) .col j
              (strSet (getSeq nn .col j).value idx (newValue.getD j 'x')) :=
        update_at_pos_some_row_eq nn (idx, j) (newValue.getD j 'x')
      set v0 := newValue.getD j 'x' with hv0
      set nn1 := update_at_pos nn (idx, j) v0 (some .row) with hnn1
      obtain ⟨u1r, u1c, u1w, u1h, u1k, -⟩ := update_unsolved_fields nn (idx, j) v0
      have hn1rows : nn1.rows = nn.rows := by
        rw [hone, setSeqValue_col_rows, u1r]
      have hn1width : nn1.width = nn.width := by
        rw [hone, (setSeqValue_fields _ _ _ _).2.2.2.2.1, u1w]
      have hn1height : nn1.height = nn.height := by
        rw [hone, (setSeqValue_fields _ _ _ _).2.2.2.2.2.1, u1h]
      have hn1cols : nn1.cols.length = nn.cols.length := by
        rw [hone, (setSeqValue_fields _ _ _ _).2.1]
        rw [show (update_unsolved nn (idx, j) v0).cols.length = nn.cols.length
          from by rw [u1c]]
      have hn1colne : ∀ c, c ≠ j → getSeq nn1 .col c = getSeq nn .col c := by
        intro c hc
        rw [hone, getSeq_setSeqValue_ne _ _ _ _ _ _ (by
          intro hand
          exact hc hand.2.symm)]
        exact getSeq_update_unsolved nn (idx, j) v0 .col c
      have hn1colj : getSeq nn1 .col j
          = { getSeq nn .col j with value := strSet (getSeq nn .col j).value idx v0 } := by
        rw [hone, getSeq_setSeqValue_same _ _ _ _ (by
          show j < (update_unsolved nn (idx, j) v0).cols.length
          rw [u1c]
          exact hjlt)]
        rw [getSeq_update_unsolved nn (idx, j) v0 .col j]
      have hn1mem : ∀ p : Nat × Nat, p ∈ nn1.unsolved ↔
          (if p = (idx, j) then v0 = 'x' else p ∈ nn.unsolved) := by
        intro p
        rw [hone, show (setSeqValue (update_unsolved nn (idx, j) v0) .col j
            (strSet (getSeq nn .col j).value idx v0)).unsolved
          = (update_unsolved nn (idx, j) v0).unsolved
          from (setSeqValue_fields _ _ _ _).2.2.2.1]
        exact update_unsolved_mem nn (idx, j) v0 hnd p
      have hn1nd : nn1.unsolved.Nodup := by
        rw [hone, show (setSeqValue (update_unsolved nn (idx, j) v0) .col j
            (strSet (getSeq nn .col j).value idx v0)).unsolved
          = (update_unsolved nn (idx, j) v0).unsolved
          from (setSeqValue_fields _ _ _ _).2.2.2.1]
        exact update_unsolved_nodup nn (idx, j) v0 hnd
      obtain ⟨r1, r2, r3, r4, r5, r6, r7, r8⟩ := ih (j + 1) nn1 hn1nd
        (fun c hc1 hc2 => by
          rw [hn1colne c (by omega)]
          exact hlen c (by omega) (by omega))
        (by omega)
      refine ⟨by rw [r1, hn1rows], by rw [r2, hn1width], by rw [r3, hn1height],
        by rw [r4, hn1cols], ?_, ?_, ?_, r8⟩
      · intro c hc
        rw [r5 c (by omega), hn1colne c (by omega)]
      · intro c hc1 hc2
        by_cases hcj : c = j
        · subst hcj
          rw [r5 c (by omega), hn1colj]
        · rw [r6 c (by omega) (by omega), hn1colne c hcj]
      · intro p
        rw [r7 p]
        by_cases hrest : p.1 = idx ∧ j + 1 ≤ p.2 ∧ p.2 < j + 1 + k
        · rw [if_pos hrest, if_pos (by omega)]
        · rw [if_neg hrest, hn1mem p]
          by_cases hpj : p = (idx, j)
          · rw [if_pos hpj, if_pos (by
              rw [hpj]
              exact ⟨rfl, le_refl j, by omega⟩)]
            rw [show p.2 = j from by rw [hpj]]
          · rw [if_neg hpj, if_neg (by
              intro hand
              have hp2 : p.2 = j := by omega
              exact hpj (Prod.ext hand.1 hp2))]

theorem uss_col_fold (idx : Nat) (newValue : List Char) :
    ∀ (cnt j : Nat) (nn : Nonogram),
    nn.unsolved.Nodup →
    (∀ r, j ≤ r → r < j + cnt → idx < (getSeq nn .row r).value.length) →
    j + cnt ≤ nn.rows.length →
    ((List.range' j cnt).foldl
        (fun m i => update_at_pos m (i, idx) (newValue.getD i 'x') (some .col)) nn).cols
      = nn.cols ∧
    ((List.range' j cnt).foldl
        (fun m i => update_at_pos m (i, idx) (newValue.getD i 'x') (some .col)) nn).width
      = nn.width ∧
    ((List.range' j cnt).foldl
        (fun m i => update_at_pos m (i, idx) (newValue.getD i 'x') (some .col)) nn).height
      = nn.height ∧
    ((List.range' j cnt).foldl
        (fun m i => update_at_pos m (i, idx) (newValue.getD i 'x') (some .col)) nn).rows.length
      = nn.rows.length ∧
    (∀ r, ¬ (j ≤ r ∧ r < j + cnt) →
      getSeq ((List.range' j cnt).foldl
        (fun m i => update_at_pos m (i, idx) (newValue.getD i 'x') (some .col)) nn) .row r
        = getSeq nn .row r) ∧
    (∀ r, j ≤ r → r < j + cnt →
      getSeq ((List.range' j cnt).foldl
        (fun m i => update_at_pos m (i, idx) (newValue.getD i 'x') (some .col)) nn) .row r
        = { getSeq nn .row r with
            value := strSet (getSeq nn .row r).value idx (newValue.getD r 'x') }) ∧
    (∀ p : Nat × Nat, p ∈ ((List.range' j cnt).foldl
        (fun m i => update_at_pos m (i, idx) (newValue.getD i 'x') (some .col)) nn).unsolved ↔
      (if p.2 = idx ∧ j ≤ p.1 ∧ p.1 < j + cnt then newValue.getD p.1 'x' = 'x'
       else p ∈ nn.unsolved)) ∧
    ((List.range' j cnt).foldl
        (fun m i => update_at_pos m (i, idx) (newValue.getD i 'x') (some .col)) nn).unsolved.Nodup := by
  intro cnt
  induction cnt with
  | zero =>
      intro j nn hnd hlen hle
      refine ⟨rfl, rfl, rfl, rfl, fun r _ => rfl, fun r hr1 hr2 => absurd hr2 (by omega),
        fun p => ?_, hnd⟩
      rw [if_neg (by omega)]
      exact Iff.rfl
  | succ k ih =>
      intro j nn hnd hlen hle
      have hstep : List.range' j (k + 1) = j :: List.range' (j + 1) k := List.range'_succ j k 1
      rw [hstep, List.foldl_cons]
      have hjlt : j < nn.rows.length := by omega
      have hjv : idx < (getSeq nn .row j).value.length := hlen j (le_refl j) (by omega)
      have hone : update_at_pos nn (j, idx) (newValue.getD j 'x') (some .col)
          = setSeqValue (update_unsolved nn (j, idx) (newValue.getD j 'x')) .row j
              (strSet (getSeq nn .row j).value idx (newValue.getD j 'x')) :=
        update_at_pos_some_col_eq nn (j, idx) (newValue.getD j 'x')
      set v0 := newValue.getD j 'x' with hv0
      set nn1 := update_at_pos nn (j, idx) v0 (some .col) with hnn1
      obtain ⟨u1r, u1c, u1w, u1h, u1k, -⟩ := update_unsolved_fields nn (j, idx) v0
      have hn1cols : nn1.cols = nn.cols := by
        rw [hone, setSeqValue_row_cols, u1c]
      have hn1width : nn1.width = nn.width := by
        rw [hone, (setSeqValue_fields _ _ _ _).2.2.2.2.1, u1w]
      have hn1height : nn1.height = nn.height := by
        rw [hone, (setSeqValue_fields _ _ _ _).2.2.2.2.2.1, u1h]
      have hn1rows : nn1.rows.length = nn.rows.length := by
        rw [hone, (setSeqValue_fields _ _ _ _).1]
        rw [show (update_unsolved nn (j, idx) v0).rows.length = nn.rows.length
          from by rw [u1r]]
      have hn1rowne : ∀ r, r ≠ j → getSeq nn1 .row r = getSeq nn .row r := by
        intro r hr
        rw [hone, getSeq_setSeqValue_ne _ _ _ _ _ _ (by
          intro hand
          exact hr hand.2.symm)]
        exact getSeq_update_unsolved nn (j, idx) v0 .row r
      have hn1rowj : getSeq nn1 .row j
          = { getSeq nn .row j with value := strSet (getSeq nn .row j).value idx v0 } := by
        rw [hone, getSeq_setSeqValue_same _ _ _ _ (by
          show j < (update_unsolved nn (j, idx) v0).rows.length
          rw [u1r]
          exact hjlt)]
        rw [getSeq_update_unsolved nn (j, idx) v0 .row j]
      have hn1mem : ∀ p : Nat × Nat, p ∈ nn1.unsolved ↔
          (if p = (j, idx) then v0 = 'x' else p ∈ nn.unsolved) := by
        intro p
        rw [hone, show (setSeqValue (update_unsolved nn (j, idx) v0) .row j
            (strSet (getSeq nn .row j).value idx v0)).unsolved
          = (update_unsolved nn (j, idx) v0).unsolved
          from (setSeqValue_fields _ _ _ _).2.2.2.1]
        exact update_unsolved_mem nn (j, idx) v0 hnd p
      have hn1nd : nn1.unsolved.Nodup := by
        rw [hone, show (setSeqValue (update_unsolved nn (j, idx) v0) .row j
            (strSet (getSeq nn .row j).value idx v0)).unsolved
          = (update_unsolved nn (j, idx) v0).unsolved
          from (setSeqValue_fields _ _ _ _).2.2.2.1]
        exact update_unsolved_nodup nn (j, idx) v0 hnd
      obtain ⟨r1, r2, r3, r4, r5, r6, r7, r8⟩ := ih (j + 1) nn1 hn1nd
        (fun r hr1 hr2 => by
          rw [hn1rowne r (by omega)]
          exact hlen r (by omega) (by omega))
        (by omega)
      refine ⟨by rw [r1, hn1cols], by rw [r2, hn1width], by rw [r3, hn1height],
        by rw [r4, hn1rows], ?_, ?_, ?_, r8⟩
      · intro r hr
        rw [r5 r (by omega), hn1rowne r (by omega)]
      · intro r hr1 hr2
        by_cases hrj : r = j
        · subst hrj
          rw [r5 r (by omega), hn1rowj]
        · rw [r6 r (by omega) (by omega), hn1rowne r hrj]
      · intro p
        rw [r7 p]
        by_cases hrest : p.2 = idx ∧ j + 1 ≤ p.1 ∧ p.1 < j + 1 + k
        · rw [if_pos hrest, if_pos (by omega)]
        · rw [if_neg hrest, hn1mem p]
          by_cases hpj : p = (j, idx)
          · rw [if_pos hpj, if_pos (by
              rw [hpj]
              exact ⟨rfl, le_refl j, by omega⟩)]
            rw [show p.1 = j from by rw [hpj]]
          · rw [if_neg hpj, if_neg (by
              intro hand
              have hp1 : p.1 = j := by omega
              exact hpj (Prod.ext hp1 hand.1))]

theorem uss_inv_row (n : Nonogram) (idx : Nat) (newValue : List Char)
    (hI : BoardInv n) (hidx : idx < n.rows.length) (hnv : newValue.length = n.width) :
    BoardInv (update_single_sequence n .row idx newValue) := by
  obtain ⟨⟨hrh, hcw, hrlen, hclen⟩, hAg, ⟨hU1, hU2⟩, hnd⟩ := hI
  have hih : idx < n.height := by rw [← hrh]; exact hidx
  have hdef : update_single_sequence n .row idx newValue
      = (List.range (getSeq (setSeqValue n .row idx newValue) .row idx).length).foldl
          (fun m i => update_at_pos m (idx, i) (newValue.getD i 'x') (some .row))
          (setSeqValue n .row idx newValue) := rfl
  rw [hdef]
  set n1 := setSeqValue n .row idx newValue with hn1
  have hg1 : getSeq n1 .row idx = { getSeq n .row idx with value := newValue } := by
    rw [hn1]
    exact getSeq_setSeqValue_same n .row idx newValue (show idx < lineCount n .row from hidx)
  have hg1ne : ∀ r, r ≠ idx → getSeq n1 .row r = getSeq n .row r := by
    intro r hr
    rw [hn1]
    exact getSeq_setSeqValue_ne n .row .row idx r newValue
      (by intro hand; exact hr hand.2.symm)
  have hg1col : ∀ c, getSeq n1 .col c = getSeq n .col c := by
    intro c
    rw [hn1]
    exact getSeq_setSeqValue_ne n .row .col idx c newValue (by simp)
  have hL : (getSeq n1 .row idx).length = n.width := by
    rw [hg1]
    exact (hrlen idx hih).2
  have hu1 : n1.unsolved = n.unsolved := by
    rw [hn1]
    exact (setSeqValue_fields _ _ _ _).2.2.2.1
  have hfw : n1.width = n.width := by
    rw [hn1]
    exact (setSeqValue_fields _ _ _ _).2.2.2.2.1
  have hfh : n1.height = n.height := by
    rw [hn1]
    exact (setSeqValue_fields _ _ _ _).2.2.2.2.2.1
  have hfr : n1.rows.length = n.rows.length := by
    rw [hn1]
    exact (setSeqValue_fields _ _ _ _).1
  have hfc : n1.cols.length = n.cols.length := by
    rw [hn1]
    exact (setSeqValue_fields _ _ _ _).2.1
  rw [hL, List.range_eq_range']
  obtain ⟨r1, r2, r3, r4, r5, r6, r7, r8⟩ := uss_row_fold idx newValue n.width 0 n1
    (by rw [hu1]; exact hnd)
    (fun c hc1 hc2 => by
      rw [hg1col c, (hclen c (by omega)).1]
      exact hih)
    (by rw [hfc, hcw]; omega)
  set res := (List.range' 0 n.width).foldl
    (fun m i => update_at_pos m (idx, i) (newValue.getD i 'x') (some .row)) n1 with hres
  have hrowres : ∀ r, getSeq res .row r = getSeq n1 .row r :=
    fun r => getSeq_row_congr res n1 r1 r
  -- pointwise values of the result
  have hrv : ∀ r c, rowVal res r c
      = if r = idx then newValue.getD c 'x' else rowVal n r c := by
    intro r c
    rw [rowVal, hrowres r]
    by_cases hr : r = idx
    · subst hr
      rw [if_pos rfl, hg1]
    · rw [if_neg hr, hg1ne r hr]
      rfl
  have hcv : ∀ c r, c < n.width → r < n.height → colVal res c r
      = if r = idx then newValue.getD c 'x' else colVal n c r := by
    intro c r hc hr
    rw [colVal, r6 c (by omega) (by omega), hg1col c]
    show (strSet (getSeq n .col c).value idx (newValue.getD c 'x')).getD r 'x' = _
    have hb : idx < (getSeq n .col c).value.length := by
      rw [(hclen c hc).1]
      exact hih
    by_cases hreq : r = idx
    · subst hreq
      rw [if_pos rfl]
      exact strSet_getD_eq _ _ _ hb
    · rw [if_neg hreq]
      exact strSet_getD_ne _ _ _ hb r hreq
  refine ⟨⟨?_, ?_, ?_, ?_⟩, ?_, ⟨?_, ?_⟩, r8⟩
  · rw [r1, hfr, r3, hfh, hrh]
  · rw [r4, hfc, r2, hfw, hcw]
  · intro r hr
    rw [r3, hfh] at hr
    rw [r2, hfw, hrowres r]
    by_cases hreq : r = idx
    · subst hreq
      rw [hg1]
      exact ⟨hnv, (hrlen r hr).2⟩
    · rw [hg1ne r hreq]
      exact hrlen r hr
  · intro c hc
    rw [r2, hfw] at hc
    rw [r3, hfh, r6 c (by omega) (by omega), hg1col c]
    refine ⟨?_, (hclen c hc).2⟩
    show (strSet (getSeq n .col c).value idx (newValue.getD c 'x')).length = n.height
    rw [strSet_length _ _ _ (by rw [(hclen c hc).1]; exact hih)]
    exact (hclen c hc).1
  · intro r hr c hc
    rw [r3, hfh] at hr
    rw [r2, hfw] at hc
    rw [hrv r c, hcv c r hc hr]
    by_cases hreq : r = idx
    · rw [if_pos hreq, if_pos hreq]
    · rw [if_neg hreq, if_neg hreq]
      exact hAg r hr c hc
  · intro p hp
    rw [r7 p, hu1] at hp
    rw [r3, hfh, r2, hfw, hrv]
    by_cases hcase : p.1 = idx ∧ 0 ≤ p.2 ∧ p.2 < 0 + n.width
    · rw [if_pos hcase] at hp
      exact ⟨by rw [hcase.1]; exact hih, by omega, by rw [if_pos hcase.1]; exact hp⟩
    · rw [if_neg hcase] at hp
      obtain ⟨ha, hb, hc⟩ := hU1 p hp
      have hp1 : p.1 ≠ idx := by
        intro heq
        exact hcase ⟨heq, by omega, by omega⟩
      exact ⟨ha, hb, by rw [if_neg hp1]; exact hc⟩
  · intro r hr c hc hx
    rw [r3, hfh] at hr
    rw [r2, hfw] at hc
    rw [hrv] at hx
    rw [r7 (r, c), hu1]
    by_cases hreq : r = idx
    · rw [if_pos hreq] at hx
      rw [if_pos ⟨hreq, by omega, by omega⟩]
      exact hx
    · rw [if_neg hreq] at hx
      rw [if_neg (by
        intro hand
        exact hreq hand.1)]
      exact hU2 r hr c hc hx

theorem uss_inv_col (n : Nonogram) (idx : Nat) (newValue : List Char)
    (hI : BoardInv n) (hidx : idx < n.cols.length) (hnv : newValue.length = n.height) :
    BoardInv (update_single_sequence n .col idx newValue) := by
  obtain ⟨⟨hrh, hcw, hrlen, hclen⟩, hAg, ⟨hU1, hU2⟩, hnd⟩ := hI
  have hiw : idx < n.width := by rw [← hcw]; exact hidx
  have hdef : update_single_sequence n .col idx newValue
      = (List.range (getSeq (setSeqValue n .col idx newValue) .col idx).length).foldl
          (fun m i => update_at_pos m (i, idx) (newValue.getD i 'x') (some .col))
          (setSeqValue n .col idx newValue) := rfl
  rw [hdef]
  set n1 := setSeqValue n .col idx newValue with hn1
  have hg1 : getSeq n1 .col idx = { getSeq n .col idx with value := newValue } := by
    rw [hn1]
    exact getSeq_setSeqValue_same n .col idx newValue (show idx < lineCount n .col from hidx)
  have hg1ne : ∀ c, c ≠ idx → getSeq n1 .col c = getSeq n .col c := by
    intro c hc
    rw [hn1]
    exact getSeq_setSeqValue_ne n .col .col idx c newValue
      (by intro hand; exact hc hand.2.symm)
  have hg1row : ∀ r, getSeq n1 .row r = getSeq n .row r := by
    intro r
    rw [hn1]
    exact getSeq_setSeqValue_ne n .col .row idx r newValue (by simp)
  have hL : (getSeq n1 .col idx).length = n.height := by
    rw [hg1]
    exact (hclen idx hiw).2
  have hu1 : n1.unsolved = n.unsolved := by
    rw [hn1]
    exact (setSeqValue_fields _ _ _ _).2.2.2.1
  have hfw : n1.width = n.width := by
    rw [hn1]
    exact (setSeqValue_fields _ _ _ _).2.2.2.2.1
  have hfh : n1.height = n.height := by
    rw [hn1]
    exact (setSeqValue_fields _ _ _ _).2.2.2.2.2.1
  have hfr : n1.rows.length = n.rows.length := by
    rw [hn1]
    exact (setSeqValue_fields _ _ _ _).1
  have hfc : n1.cols.length = n.cols.length := by
    rw [hn1]
    exact (setSeqValue_fields _ _ _ _).2.1
  rw [hL, List.range_eq_range']
  obtain ⟨r1, r2, r3, r4, r5, r6, r7, r8⟩ := uss_col_fold idx newValue n.height 0 n1
    (by rw [hu1]; exact hnd)
    (fun r hr1 hr2 => by
      rw [hg1row r, (hrlen r (by omega)).1]
      exact hiw)
    (by rw [hfr, hrh]; omega)
  set res := (List.range' 0 n.height).foldl
    (fun m i => update_at_pos m (i, idx) (newValue.getD i 'x') (some .col)) n1 with hres
  have hcolres : ∀ c, getSeq res .col c = getSeq n1 .col c :=
    fun c => getSeq_col_congr res n1 r1 c
  have hcv : ∀ c r, colVal res c r
      = if c = idx then newValue.getD r 'x' else colVal n c r := by
    intro c r
    rw [colVal, hcolres c]
    by_cases hc : c = idx
    · subst hc
      rw [if_pos rfl, hg1]
    · rw [if_neg hc, hg1ne c hc]
      rfl
  have hrv : ∀ r c, r < n.height → c < n.width → rowVal res r c
      = if c = idx then newValue.getD r 'x' else rowVal n r c := by
    intro r c hr hc
    rw [rowVal, r6 r (by omega) (by omega), hg1row r]
    show (strSet (getSeq n .row r).value idx (newValue.getD r 'x')).getD c 'x' = _
    have hb : idx < (getSeq n .row r).value.length := by
      rw [(hrlen r hr).1]
      exact hiw
    by_cases hceq : c = idx
    · subst hceq
      rw [if_pos rfl]
      exact strSet_getD_eq _ _ _ hb
    · rw [if_neg hceq]
      exact strSet_getD_ne _ _ _ hb c hceq
  refine ⟨⟨?_, ?_, ?_, ?_⟩, ?_, ⟨?_, ?_⟩, r8⟩
  · rw [r4, hfr, r3, hfh, hrh]
  · rw [r1, hfc, r2, hfw, hcw]
  · intro r hr
    rw [r3, hfh] at hr
    rw [r2, hfw, r6 r (by omega) (by omega), hg1row r]
    refine ⟨?_, (hrlen r hr).2⟩
    show (strSet (getSeq n .row r).value idx (newValue.getD r 'x')).length = n.width
    rw [strSet_length _ _ _ (by rw [(hrlen r hr).1]; exact hiw)]
    exact (hrlen r hr).1
  · intro c hc
    rw [r2, hfw] at hc
    rw [r3, hfh, hcolres c]
    by_cases hceq : c = idx
    · subst hceq
      rw [hg1]
      exact ⟨hnv, (hclen c hc).2⟩
    · rw [hg1ne c hceq]
      exact hclen c hc
  · intro r hr c hc
    rw [r3, hfh] at hr
    rw [r2, hfw] at hc
    rw [hrv r c hr hc, hcv c r]
    by_cases hceq : c = idx
    · rw [if_pos hceq, if_pos hceq]
    · rw [if_neg hceq, if_neg hceq]
      exact hAg r hr c hc
  · intro p hp
    rw [r7 p, hu1] at hp
    rw [r3, hfh, r2, hfw]
    by_cases hcase : p.2 = idx ∧ 0 ≤ p.1 ∧ p.1 < 0 + n.height
    · rw [if_pos hcase] at hp
      refine ⟨by omega, by rw [hcase.1]; exact hiw, ?_⟩
      rw [hrv p.1 p.2 (by omega) (by rw [hcase.1]; exact hiw), if_pos hcase.1]
      exact hp
    · rw [if_neg hcase] at hp
      obtain ⟨ha, hb, hc⟩ := hU1 p hp
      have hp2 : p.2 ≠ idx := by
        intro heq
        exact hcase ⟨heq, by omega, by omega⟩
      refine ⟨ha, hb, ?_⟩
      rw [hrv p.1 p.2 ha hb, if_neg hp2]
      exact hc
  · intro r hr c hc hx
    rw [r3, hfh] at hr
    rw [r2, hfw] at hc
    rw [hrv r c hr hc] at hx
    rw [r7 (r, c), hu1]
    by_cases hceq : c = idx
    · rw [if_pos hceq] at hx
      rw [if_pos ⟨hceq, by omega, by omega⟩]
      exact hx
    · rw [if_neg hceq] at hx
      rw [if_neg (by
        intro hand
        exact hceq hand.1)]
      exact hU2 r hr c hc hx

theorem foldl_id_of_fix {α β : Type} (f : β → α → β) (b : β)
    (h : ∀ a, f b a = b) : ∀ l : List α, l.foldl f b = b := by
  intro l
  induction l with
  | nil => rfl
  | cons a t ih =>
      rw [List.foldl_cons, h a]
      exact ih

theorem foldlM_fillSection_ok_length {clue : List Nat} {es : Int} :
    ∀ {entries : List (Nat × Nat)} {v v' : List Char},
    entries.foldlM (fillSection clue es) v = .ok v' → v'.length = v.length := by
  intro entries
  induction entries with
  | nil =>
      intro v v' h
      injection h with h
      rw [h]
  | cons a t ih =>
      intro v v' h
      rw [List.foldlM_cons] at h
      cases hp : fillSection clue es v a with
      | error err =>
          rw [hp, except_bind_error] at h
          exact absurd h (by simp)
      | ok v1 =>
          rw [hp, except_bind_ok] at h
          rw [ih h, fillSection_ok_length hp]

theorem get_initial_value_ok_length {clue : List Nat} {L : Nat} {v : List Char}
    (h : get_initial_value clue L = .ok v) : v.length = L := by
  unfold get_initial_value at h
  dsimp only at h
  split_ifs at h
  · injection h with h
    rw [← h, List.length_replicate]
  · injection h with h
    rw [← h, List.length_replicate]
  · rw [foldlM_fillSection_ok_length h, List.length_replicate]

theorem mkSequence_ok {clue : List Nat} {L : Nat} {cap : Int} {s : Sequence}
    (h : mkSequence clue L cap = .ok s) :
    s.value.length = L ∧ s.length = L ∧ s.clue = clue := by
  unfold mkSequence at h
  cases hv : get_initial_value clue L with
  | error e =>
      rw [hv, except_bind_error] at h
      exact absurd h (by simp)
  | ok value =>
      rw [hv, except_bind_ok] at h
      cases hc : get_possible_solution_count clue L with
      | error e =>
          rw [hc, except_bind_error] at h
          exact absurd h (by simp)
      | ok sp =>
          rw [hc, except_bind_ok] at h
          injection h with h
          rw [← h]
          exact ⟨get_initial_value_ok_length hv, rfl, rfl⟩

theorem reconcile_col_no_rows (n : Nonogram) (idx : Nat) (h : n.rows = []) :
    reconcile_sequences n .col idx = n := by
  unfold reconcile_sequences
  apply foldl_id_of_fix
  intro p
  rw [if_neg]
  intro hand
  have h1 : p.1 < n.rows.length := hand.1
  rw [h] at h1
  simp at h1

/-- The loop body of `Nonogram.reconcile_sequences` specialised to
`line_type == "row"`: `p` is `(i, cell_value)` from `enumerate(v)`. -/
def recRowBody (idx : Nat) (nn : Nonogram) (p : Nat × Char) : Nonogram :=
  if p.1 < nn.cols.length ∧ p.2 ≠ (getSeq nn .col p.1).value.getD idx 'x' then
    update_at_pos nn (idx, p.1)
      (if p.2 ≠ 'x' then p.2 else (getSeq nn .col p.1).value.getD idx 'x')
      (some (if p.2 ≠ 'x' then LineType.row else LineType.col))
  else nn

theorem reconcile_row_eq (n : Nonogram) (idx : Nat) :
    reconcile_sequences n .row idx
      = (List.enumFrom 0 (getSeq n .row idx).value).foldl (recRowBody idx) n := rfl

theorem rec_row_fold (idx : Nat) :
    ∀ (w : List Char) (j : Nat) (nn : Nonogram),
    nn.unsolved = [] →
    idx < nn.rows.length →
    (∀ t, t < w.length → idx < (getSeq nn .col (j + t)).value.length) →
    (∀ t, t < w.length → (getSeq nn .row idx).value.getD (j + t) 'x' = w.getD t 'x') →
    j + w.length ≤ nn.cols.length →
    j + w.length ≤ (getSeq nn .row idx).value.length →
    ∀ res, res = (List.enumFrom j w).foldl (recRowBody idx) nn →
    res.unsolved = [] ∧
    res.width = nn.width ∧
    res.height = nn.height ∧
    res.rows.length = nn.rows.length ∧
    res.cols.length = nn.cols.length ∧
    (∀ r, r ≠ idx → getSeq res .row r = getSeq nn .row r) ∧
    (getSeq res .row idx).length = (getSeq nn .row idx).length ∧
    (getSeq res .row idx).value.length = (getSeq nn .row idx).value.length ∧
    (∀ i, ¬ (j ≤ i ∧ i < j + w.length) →
      (getSeq res .row idx).value.getD i 'x' = (getSeq nn .row idx).value.getD i 'x') ∧
    (∀ t, t < w.length → (getSeq res .row idx).value.getD (j + t) 'x'
      = (if w.getD t 'x' ≠ 'x' then w.getD t 'x'
         else (getSeq nn .col (j + t)).value.getD idx 'x')) ∧
    (∀ c, ¬ (j ≤ c ∧ c < j + w.length) → getSeq res .col c = getSeq nn .col c) ∧
    (∀ t, t < w.length → getSeq res .col (j + t)
      = (if w.getD t 'x' ≠ 'x' ∧
            w.getD t 'x' ≠ (getSeq nn .col (j + t)).value.getD idx 'x'
         then { getSeq nn .col (j + t) with
                value := strSet (getSeq nn .col (j + t)).value idx (w.getD t 'x') }
         else getSeq nn .col (j + t))) := by
  intro w
  induction w with
  | nil =>
      intro j nn h1 h2 h3 h4 h5 h6 res hres
      subst hres
      refine ⟨h1, rfl, rfl, rfl, rfl, fun r _ => rfl, rfl, rfl, fun i _ => rfl,
        fun t ht => absurd ht (by simp), fun c _ => rfl, fun t ht => absurd ht (by simp)⟩
  | cons a w ih =>
      intro j nn hnu hri hcb hstale hle hrl res hres
      simp only [List.length_cons] at hcb hstale hle hrl ⊢
      have henum : List.enumFrom j (a :: w) = (j, a) :: List.enumFrom (j + 1) w := rfl
      rw [henum, List.foldl_cons] at hres
      have hjc : j < nn.cols.length := by omega
      have hstale0 : (getSeq nn .row idx).value.getD j 'x' = a := by
        have h0 := hstale 0 (by omega)
        simpa using h0
      have hjrv : j < (getSeq nn .row idx).value.length := by omega
      have hcb0 : idx < (getSeq nn .col j).value.length := by
        have h0 := hcb 0 (by omega)
        simpa using h0
      by_cases heq : a = (getSeq nn .col j).value.getD idx 'x'
      · -- the cell already agrees with the column: the step is a no-op
        have hstep : recRowBody idx nn (j, a) = nn := by
          unfold recRowBody
          rw [if_neg]
          intro hand
          exact hand.2 heq
        rw [hstep] at hres
        obtain ⟨c1, c2, c3, c4, c5, c6, c7, c8, c9, c10, c11, c12⟩ :=
          ih (j + 1) nn hnu hri
            (fun t ht => by
              have h0 := hcb (t + 1) (by omega)
              rwa [show j + (t + 1) = j + 1 + t from by omega] at h0)
            (fun t ht => by
              have h0 := hstale (t + 1) (by omega)
              rwa [show j + (t + 1) = j + 1 + t from by omega,
                List.getD_cons_succ] at h0)
            (by omega) (by omega) res hres
        refine ⟨c1, c2, c3, c4, c5, c6, c7, c8, ?_, ?_, ?_, ?_⟩
        · intro i hi
          exact c9 i (by omega)
        · intro t ht
          match t with
          | 0 =>
              rw [show j + 0 = j from rfl, List.getD_cons_zero]
              rw [c9 j (by omega), hstale0]
              split_ifs with hx
              · rfl
              · rw [heq]
          | t + 1 =>
              rw [show j + (t + 1) = j + 1 + t from by omega, List.getD_cons_succ]
              exact c10 t (by omega)
        · intro c hc
          exact c11 c (by omega)
        · intro t ht
          match t with
          | 0 =>
              rw [show j + 0 = j from rfl, List.getD_cons_zero]
              rw [c11 j (by omega)]
              rw [if_neg (by
                intro hand
                exact hand.2 heq)]
          | t + 1 =>
              rw [show j + (t + 1) = j + 1 + t from by omega, List.getD_cons_succ]
              exact c12 t (by omega)
      · by_cases hax : a = 'x'
        · -- unknown in the row, known in the column: write the row cell
          have hcvx : (getSeq nn .col j).value.getD idx 'x' ≠ 'x' := by
            intro hc
            rw [hax] at heq
            exact heq hc.symm
          have hstep : recRowBody idx nn (j, a)
              = setSeqValue nn .row idx
                  (strSet (getSeq nn .row idx).value j
                    ((getSeq nn .col j).value.getD idx 'x')) := by
            unfold recRowBody
            rw [if_pos ⟨hjc, heq⟩]
            rw [if_neg (by simp [hax]), if_neg (by simp [hax])]
            rw [update_at_pos_some_col_eq]
            rw [show update_unsolved nn (idx, j) ((getSeq nn .col j).value.getD idx 'x') = nn
              from by
                unfold update_unsolved
                rw [if_neg hcvx, if_neg (by rw [hnu]; simp)]]
          rw [hstep] at hres
          have hg1 : getSeq (setSeqValue nn .row idx
              (strSet (getSeq nn .row idx).value j
                ((getSeq nn .col j).value.getD idx 'x'))) .row idx
              = { getSeq nn .row idx with
                  value := strSet (getSeq nn .row idx).value j
                    ((getSeq nn .col j).value.getD idx 'x') } :=
            getSeq_setSeqValue_same nn .row idx _ hri
          have hg1ne : ∀ r, r ≠ idx → getSeq (setSeqValue nn .row idx
              (strSet (getSeq nn .row idx).value j
                ((getSeq nn .col j).value.getD idx 'x'))) .row r = getSeq nn .row r :=
            fun r hr => getSeq_setSeqValue_ne nn .row .row idx r _
              (by intro hand; exact hr hand.2.symm)
          have hg1col : ∀ c, getSeq (setSeqValue nn .row idx
              (strSet (getSeq nn .row idx).value j
                ((getSeq nn .col j).value.getD idx 'x'))) .col c = getSeq nn .col c :=
            fun c => getSeq_setSeqValue_ne nn .row .col idx c _ (by simp)
          have hvlen : (getSeq (setSeqValue nn .row idx
              (strSet (getSeq nn .row idx).value j
                ((getSeq nn .col j).value.getD idx 'x'))) .row idx).value.length
              = (getSeq nn .row idx).value.length := by
            rw [hg1]
            exact strSet_length _ _ _ hjrv
          obtain ⟨c1, c2, c3, c4, c5, c6, c7, c8, c9, c10, c11, c12⟩ :=
            ih (j + 1) (setSeqValue nn .row idx
                (strSet (getSeq nn .row idx).value j
                  ((getSeq nn .col j).value.getD idx 'x')))
              (by rw [(setSeqValue_fields _ _ _ _).2.2.2.1]; exact hnu)
              (by rw [(setSeqValue_fields _ _ _ _).1]; exact hri)
              (fun t ht => by
                rw [hg1col (j + 1 + t)]
                have h0 := hcb (t + 1) (by omega)
                rwa [show j + (t + 1) = j + 1 + t from by omega] at h0)
              (fun t ht => by
                rw [hg1]
                show (strSet (getSeq nn .row idx).value j
                  ((getSeq nn .col j).value.getD idx 'x')).getD (j + 1 + t) 'x' = _
                rw [strSet_getD_ne _ _ _ hjrv _ (by omega)]
                have h0 := hstale (t + 1) (by omega)
                rwa [show j + (t + 1) = j + 1 + t from by omega,
                  List.getD_cons_succ] at h0)
              (by rw [(setSeqValue_fields _ _ _ _).2.1]; omega)
              (by rw [hvlen]; omega)
              res hres
          refine ⟨c1,
            by rw [c2, (setSeqValue_fields _ _ _ _).2.2.2.2.1],
            by rw [c3, (setSeqValue_fields _ _ _ _).2.2.2.2.2.1],
            by rw [c4, (setSeqValue_fields _ _ _ _).1],
            by rw [c5, (setSeqValue_fields _ _ _ _).2.1],
            ?_, ?_, ?_, ?_, ?_, ?_, ?_⟩
          · intro r hr
            rw [c6 r hr, hg1ne r hr]
          · rw [c7, hg1]
          · rw [c8, hvlen]
          · intro i hi
            rw [c9 i (by omega), hg1]
            show (strSet (getSeq nn .row idx).value j
              ((getSeq nn .col j).value.getD idx 'x')).getD i 'x' = _
            rw [strSet_getD_ne _ _ _ hjrv _ (by omega)]
          · intro t ht
            match t with
            | 0 =>
                rw [show j + 0 = j from rfl, List.getD_cons_zero]
                rw [c9 j (by omega), hg1]
                show (strSet (getSeq nn .row idx).value j
                  ((getSeq nn .col j).value.getD idx 'x')).getD j 'x' = _
                rw [strSet_getD_eq _ _ _ hjrv]
                rw [if_neg (by simp [hax])]
            | t + 1 =>
                rw [show j + (t + 1) = j + 1 + t from by omega, List.getD_cons_succ]
                rw [c10 t (by omega), hg1col (j + 1 + t)]
          · intro c hc
            rw [c11 c (by omega), hg1col c]
          · intro t ht
            match t with
            | 0 =>
                rw [show j + 0 = j from rfl, List.getD_cons_zero]
                rw [c11 j (by omega), hg1col j]
                rw [if_neg (by
                  intro hand
                  exact hand.1 hax)]
            | t + 1 =>
                rw [show j + (t + 1) = j + 1 + t from by omega, List.getD_cons_succ]
                rw [c12 t (by omega), hg1col (j + 1 + t)]
        · -- known in the row, disagreeing column: write the column cell
          have hstep : recRowBody idx nn (j, a)
              = setSeqValue nn .col j (strSet (getSeq nn .col j).value idx a) := by
            unfold recRowBody
            rw [if_pos ⟨hjc, heq⟩]
            rw [if_pos hax, if_pos hax]
            rw [update_at_pos_some_row_eq]
            rw [show update_unsolved nn (idx, j) a = nn from by
              unfold update_unsolved
              rw [if_neg hax, if_neg (by rw [hnu]; simp)]]
          rw [hstep] at hres
          have hg1 : getSeq (setSeqValue nn .col j
              (strSet (getSeq nn .col j).value idx a)) .col j
              = { getSeq nn .col j with
                  value := strSet (getSeq nn .col j).value idx a } :=
            getSeq_setSeqValue_same nn .col j _ hjc
          have hg1ne : ∀ c, c ≠ j → getSeq (setSeqValue nn .col j
              (strSet (getSeq nn .col j).value idx a)) .col c = getSeq nn .col c :=
            fun c hc => getSeq_setSeqValue_ne nn .col .col j c _
              (by intro hand; exact hc hand.2.symm)
          have hg1row : ∀ r, getSeq (setSeqValue nn .col j
              (strSet (getSeq nn .col j).value idx a)) .row r = getSeq nn .row r :=
            fun r => getSeq_setSeqValue_ne nn .col .row j r _ (by simp)
          obtain ⟨c1, c2, c3, c4, c5, c6, c7, c8, c9, c10, c11, c12⟩ :=
            ih (j + 1) (setSeqValue nn .col j (strSet (getSeq nn .col j).value idx a))
              (by rw [(setSeqValue_fields _ _ _ _).2.2.2.1]; exact hnu)
              (by rw [(setSeqValue_fields _ _ _ _).1]; exact hri)
              (fun t ht => by
                rw [hg1ne (j + 1 + t) (by omega)]
                have h0 := hcb (t + 1) (by omega)
                rwa [show j + (t + 1) = j + 1 + t from by omega] at h0)
              (fun t ht => by
                rw [hg1row]
                have h0 := hstale (t + 1) (by omega)
                rwa [show j + (t + 1) = j + 1 + t from by omega,
                  List.getD_cons_succ] at h0)
              (by rw [(setSeqValue_fields _ _ _ _).2.1]; omega)
              (by rw [hg1row]; omega)
              res hres
          refine ⟨c1,
            by rw [c2, (setSeqValue_fields _ _ _ _).2.2.2.2.1],
            by rw [c3, (setSeqValue_fields _ _ _ _).2.2.2.2.2.1],
            by rw [c4, (setSeqValue_fields _ _ _ _).1],
            by rw [c5, (setSeqValue_fields _ _ _ _).2.1],
            ?_, ?_, ?_, ?_, ?_, ?_, ?_⟩
          · intro r hr
            rw [c6 r hr, hg1row r]
          · rw [c7, hg1row]
          · rw [c8, hg1row]
          · intro i hi
            rw [c9 i (by omega), hg1row]
          · intro t ht
            match t with
            | 0 =>
                rw [show j + 0 = j from rfl, List.getD_cons_zero]
                rw [c9 j (by omega), hg1row, hstale0]
                rw [if_pos hax]
            | t + 1 =>
                rw [show j + (t + 1) = j + 1 + t from by omega, List.getD_cons_succ]
                rw [c10 t (by omega), hg1ne (j + 1 + t) (by omega)]
          · intro c hc
            rw [c11 c (by omega), hg1ne c (by omega)]
          · intro t ht
            match t with
            | 0 =>
                rw [show j + 0 = j from rfl, List.getD_cons_zero]
                rw [c11 j (by omega), hg1]
                rw [if_pos ⟨hax, heq⟩]
            | t + 1 =>
                rw [show j + (t + 1) = j + 1 + t from by omega, List.getD_cons_succ]
                rw [c12 t (by omega), hg1ne (j + 1 + t) (by omega)]

theorem list_set_oob {α : Type} : ∀ (l : List α) (n : Nat) (a : α),
    l.length ≤ n → l.set n a = l := by
  intro l
  induction l with
  | nil => intro n a _; rfl
  | cons x t ih =>
      intro n a h
      cases n with
      | zero => simp at h
      | succ m =>
          show x :: t.set m a = x :: t
          rw [ih m a (by simpa using h)]

theorem setSeq_out (n : Nonogram) (lt : LineType) (idx : Nat) (s : Sequence)
    (h : lineCount n lt ≤ idx) : setSeq n lt idx s = n := by
  cases lt
  · show { n with rows := n.rows.set idx s } = n
    rw [list_set_oob n.rows idx s h]
  · show { n with cols := n.cols.set idx s } = n
    rw [list_set_oob n.cols idx s h]

theorem prune_line_val_len (σ : Shuffle) (seq : Sequence) :
    (prune_line σ seq).value = seq.value ∧ (prune_line σ seq).length = seq.length :=
  ⟨rfl, rfl⟩

theorem kss_fold_value (σ : Shuffle) (known : List (LineType × Nat × Int)) :
    ∀ (n : Nonogram) (sets0 : List (LineType × Nat × Int)) (lt : LineType) (i : Nat),
    ((getSeq (known.foldl (kssStep σ) (n, sets0)).1 lt i).value
      = (getSeq n lt i).value) ∧
    ((getSeq (known.foldl (kssStep σ) (n, sets0)).1 lt i).length
      = (getSeq n lt i).length) := by
  induction known with
  | nil => intro n sets0 lt i; exact ⟨rfl, rfl⟩
  | cons e t ih =>
      intro n sets0 lt i
      rw [List.foldl_cons]
      obtain ⟨h1, h2⟩ := ih (kssStep σ (n, sets0) e).1 (kssStep σ (n, sets0) e).2 lt i
      have hstep : (getSeq (kssStep σ (n, sets0) e).1 lt i).value = (getSeq n lt i).value ∧
          (getSeq (kssStep σ (n, sets0) e).1 lt i).length = (getSeq n lt i).length := by
        show (getSeq (setSeq n e.1 e.2.1 (prune_line σ (getSeq n e.1 e.2.1))) lt i).value
            = _ ∧ (getSeq (setSeq n e.1 e.2.1 (prune_line σ (getSeq n e.1 e.2.1))) lt i).length = _
        by_cases hsame : e.1 = lt ∧ e.2.1 = i
        · obtain ⟨rfl, rfl⟩ := hsame
          by_cases hb : e.2.1 < lineCount n e.1
          · rw [getSeq_setSeq_same n e.1 e.2.1 _ hb]
            exact ⟨rfl, rfl⟩
          · rw [setSeq_out n e.1 e.2.1 _ (by omega)]
            exact ⟨rfl, rfl⟩
        · rw [getSeq_setSeq_ne n e.1 lt e.2.1 i _ hsame]
          exact ⟨rfl, rfl⟩
      exact ⟨h1.trans hstep.1, h2.trans hstep.2⟩

theorem update_kss_boardinv (σ : Shuffle) (n : Nonogram) (hI : BoardInv n) :
    BoardInv (update_known_solution_sets σ n) := by
  obtain ⟨⟨hrh, hcw, hrlen, hclen⟩, hAg, ⟨hU1, hU2⟩, hnd⟩ := hI
  obtain ⟨f1, f2, f3, f4, f5, f6, f7⟩ := kss_fold_fields σ n.known_solution_sets n []
  have hw : (update_known_solution_sets σ n).width = n.width := f5
  have hh : (update_known_solution_sets σ n).height = n.height := f6
  have hu : (update_known_solution_sets σ n).unsolved = n.unsolved := f4
  have hrl : (update_known_solution_sets σ n).rows.length = n.rows.length := f1
  have hcl : (update_known_solution_sets σ n).cols.length = n.cols.length := f2
  have hv : ∀ lt i, (getSeq (update_known_solution_sets σ n) lt i).value
      = (getSeq n lt i).value := by
    intro lt i
    rw [getSeq_update_kss]
    exact (kss_fold_value σ n.known_solution_sets n [] lt i).1
  have hl : ∀ lt i, (getSeq (update_known_solution_sets σ n) lt i).length
      = (getSeq n lt i).length := by
    intro lt i
    rw [getSeq_update_kss]
    exact (kss_fold_value σ n.known_solution_sets n [] lt i).2
  have hrv : ∀ r c, rowVal (update_known_solution_sets σ n) r c = rowVal n r c := by
    intro r c
    rw [rowVal, rowVal, hv]
  have hcv : ∀ c r, colVal (update_known_solution_sets σ n) c r = colVal n c r := by
    intro c r
    rw [colVal, colVal, hv]
  refine ⟨⟨by rw [hrl, hh, hrh], by rw [hcl, hw, hcw], ?_, ?_⟩, ?_, ⟨?_, ?_⟩, ?_⟩
  · intro r hr
    rw [hh] at hr
    rw [hw, hv, hl]
    exact hrlen r hr
  · intro c hc
    rw [hw] at hc
    rw [hh, hv, hl]
    exact hclen c hc
  · intro r hr c hc
    rw [hh] at hr
    rw [hw] at hc
    rw [hrv, hcv]
    exact hAg r hr c hc
  · intro p hp
    rw [hu] at hp
    rw [hh, hw, hrv]
    exact hU1 p hp
  · intro r hr c hc hx
    rw [hh] at hr
    rw [hw] at hc
    rw [hrv] at hx
    rw [hu]
    exact hU2 r hr c hc hx
  · rw [hu]
    exact hnd

theorem trackIf_fields (n : Nonogram) (lt : LineType) (idx : Nat) (sp : Int) :
    (trackIf n lt idx sp).rows = n.rows ∧
    (trackIf n lt idx sp).cols = n.cols ∧
    (trackIf n lt idx sp).width = n.width ∧
    (trackIf n lt idx sp).height = n.height ∧
    (trackIf n lt idx sp).unsolved = n.unsolved ∧
    (trackIf n lt idx sp).max_solutions_to_find = n.max_solutions_to_find := by
  unfold trackIf
  split
  · exact ⟨rfl, rfl, rfl, rfl, rfl, rfl⟩
  · exact ⟨rfl, rfl, rfl, rfl, rfl, rfl⟩

theorem getD_append_lt (l l2 : List Sequence) (i : Nat) (h : i < l.length)
    (d : Sequence) : (l ++ l2).getD i d = l.getD i d := by
  rw [List.getD_eq_getElem?_getD, List.getD_eq_getElem?_getD,
    List.getElem?_append_left h]

theorem getD_append_self (l : List Sequence) (s : Sequence) (d : Sequence) :
    (l ++ [s]).getD l.length d = s := by
  rw [List.getD_eq_getElem?_getD, List.getElem?_append_right (le_refl l.length)]
  simp

theorem mem_filterMap_x_fst {i : Nat} {l : List (Nat × Char)} {x : Nat × Nat}
    (h : x ∈ l.filterMap (fun q => if q.2 = 'x' then some (i, q.1) else none)) :
    x.1 = i := by
  rw [List.mem_filterMap] at h
  obtain ⟨q, _, hg⟩ := h
  by_cases hx : q.2 = 'x'
  · rw [if_pos hx] at hg
    injection hg with hg
    rw [← hg]
  · rw [if_neg hx] at hg
    exact absurd hg (by simp)

theorem filterMap_enum_x_nodup (i : Nat) :
    ∀ (l : List (Nat × Char)), (l.map Prod.fst).Nodup →
    (l.filterMap (fun q => if q.2 = 'x' then some (i, q.1) else none)).Nodup := by
  intro l
  induction l with
  | nil => intro _; exact List.nodup_nil
  | cons a t ih =>
      intro hnd
      rw [List.map_cons, List.nodup_cons] at hnd
      by_cases hx : a.2 = 'x'
      · have hcons : List.filterMap (fun q => if q.2 = 'x' then some (i, q.1) else none)
            (a :: t)
            = (i, a.1) :: List.filterMap
                (fun q => if q.2 = 'x' then some (i, q.1) else none) t := by
          rw [List.filterMap_cons, if_pos hx]
        rw [hcons]
        rw [List.nodup_cons]
        refine ⟨?_, ih hnd.2⟩
        intro hmem
        rw [List.mem_filterMap] at hmem
        obtain ⟨q, hq, hg⟩ := hmem
        by_cases hqx : q.2 = 'x'
        · rw [if_pos hqx] at hg
          injection hg with hg
          apply hnd.1
          rw [List.mem_map]
          exact ⟨q, hq, by rw [(Prod.mk.injEq _ _ _ _).mp hg.symm |>.2]⟩
        · rw [if_neg hqx] at hg
          exact absurd hg (by simp)
      · have hcons : List.filterMap (fun q => if q.2 = 'x' then some (i, q.1) else none)
            (a :: t)
            = List.filterMap (fun q => if q.2 = 'x' then some (i, q.1) else none) t := by
          rw [List.filterMap_cons, if_neg hx]
        rw [hcons]
        exact ih hnd.2

theorem mem_get_unsolved (n : Nonogram) (p : Nat × Nat) :
    p ∈ get_unsolved n
      ↔ p.1 < n.rows.length ∧ p.2 < (getSeq n .row p.1).value.length ∧
        (getSeq n .row p.1).value.getD p.2 'x' = 'x' := by
  unfold get_unsolved
  rw [List.mem_flatMap]
  constructor
  · rintro ⟨a, ha, hp⟩
    obtain ⟨i, s⟩ := a
    rw [List.mk_mem_enum_iff_getElem?] at ha
    rw [List.mem_filterMap] at hp
    obtain ⟨q, hq, hg⟩ := hp
    obtain ⟨qi, qc⟩ := q
    rw [List.mk_mem_enum_iff_getElem?] at hq
    dsimp only at ha hq
    by_cases hx : qc = 'x'
    · rw [if_pos hx] at hg
      injection hg with hg
      subst hg
      show i < n.rows.length ∧ qi < (getSeq n .row i).value.length ∧
        (getSeq n .row i).value.getD qi 'x' = 'x'
      have hib : i < n.rows.length := by
        by_contra hge
        rw [List.getElem?_eq_none (by omega)] at ha
        exact absurd ha (by simp)
      have hgs : getSeq n .row i = s := by
        show n.rows.getD i dummySeq = s
        rw [List.getD_eq_getElem?_getD, ha]
        rfl
      have hqb : qi < s.value.length := by
        by_contra hge
        rw [List.getElem?_eq_none (by omega)] at hq
        exact absurd hq (by simp)
      refine ⟨hib, by rw [hgs]; exact hqb, ?_⟩
      rw [hgs, List.getD_eq_getElem?_getD, hq, hx]
      rfl
    · rw [if_neg hx] at hg
      exact absurd hg (by simp)
  · rintro ⟨h1, h2, h3⟩
    refine ⟨(p.1, getSeq n .row p.1), ?_, ?_⟩
    · rw [List.mk_mem_enum_iff_getElem?]
      show n.rows[p.1]? = some (n.rows.getD p.1 dummySeq)
      rw [List.getD_eq_getElem?_getD, List.getElem?_eq_getElem h1]
      rfl
    · rw [List.mem_filterMap]
      refine ⟨(p.2, 'x'), ?_, ?_⟩
      · rw [List.mk_mem_enum_iff_getElem?]
        rw [List.getD_eq_getElem?_getD, List.getElem?_eq_getElem h2] at h3
        rw [List.getElem?_eq_getElem h2]
        rw [show (getSeq n .row p.1).value[p.2] = 'x' from h3]
      · rw [if_pos rfl]
  
theorem get_unsolved_nodup (n : Nonogram) : (get_unsolved n).Nodup := by
  unfold get_unsolved
  rw [List.flatMap_def, List.nodup_flatten]
  constructor
  · intro l hl
    obtain ⟨a, _, rfl⟩ := List.mem_map.mp hl
    apply filterMap_enum_x_nodup
    rw [List.enum_map_fst]
    exact List.nodup_range _
  · rw [List.pairwise_map]
    have hpw : n.rows.enum.Pairwise (fun a b => a.1 < b.1) := by
      have h0 := List.pairwise_lt_range n.rows.length
      rw [← List.enum_map_fst n.rows, List.pairwise_map] at h0
      exact h0
    apply List.Pairwise.imp _ hpw
    intro a b hab
    intro x hxa hxb
    have h1 := mem_filterMap_x_fst hxa
    have h2 := mem_filterMap_x_fst hxb
    rw [h1] at h2
    omega

/-- One iteration of the column phase of `Nonogram.__init__`: `H` is the
outer `height` binding. -/
def colStepFn (H : Nat) (n : Nonogram) (clue : List Nat) : Except Err Nonogram := do
  let s ← mkSequence clue H n.max_solutions_to_find
  let idx := n.cols.length
  let n := { n with cols := n.cols ++ [s] }
  let n := reconcile_sequences n .col idx
  pure (trackIf n .col idx (getSeq n .col idx).solutions_possible)

/-- One iteration of the row phase of `Nonogram.__init__`: `W` is the
outer `width` binding. -/
def rowStepFn (W : Nat) (n : Nonogram) (clue : List Nat) : Except Err Nonogram := do
  let s ← mkSequence clue W n.max_solutions_to_find
  let idx := n.rows.length
  let n := { n with rows := n.rows ++ [s] }
  let n := reconcile_sequences n .row idx
  pure (trackIf n .row idx (getSeq n .row idx).solutions_possible)

theorem mkNonogram_eq (σ : Shuffle) (clues : List (List Nat) × List (List Nat)) :
    mkNonogram σ clues =
      (clues.1.foldlM (colStepFn clues.2.length)
          (⟨50, clues.1.length, clues.2.length, [], [], [], []⟩ : Nonogram)).bind
        (fun n1 => (clues.2.foldlM (rowStepFn clues.1.length) n1).bind
          (fun n2 => Except.ok (update_known_solution_sets σ
            { n2 with unsolved := get_unsolved n2 }))) := rfl

theorem colStepFn_ok {H : Nat} {n : Nonogram} {a : List Nat} {m : Nonogram}
    (h : colStepFn H n a = .ok m) (hr : n.rows = []) :
    ∃ s, mkSequence a H n.max_solutions_to_find = .ok s ∧
      m = trackIf { n with cols := n.cols ++ [s] } .col n.cols.length
        (getSeq { n with cols := n.cols ++ [s] } .col n.cols.length).solutions_possible := by
  unfold colStepFn at h
  cases hs : mkSequence a H n.max_solutions_to_find with
  | error e =>
      rw [hs, except_bind_error] at h
      exact absurd h (by simp)
  | ok s =>
      rw [hs, except_bind_ok] at h
      dsimp only at h
      refine ⟨s, rfl, ?_⟩
      have hrec : reconcile_sequences { n with cols := n.cols ++ [s] } .col n.cols.length
          = { n with cols := n.cols ++ [s] } :=
        reconcile_col_no_rows _ _
          (show ({ n with cols := n.cols ++ [s] } : Nonogram).rows = [] from hr)
      rw [hrec] at h
      injection h with h
      rw [← h]

theorem mk_col_phase (H : Nat) :
    ∀ (cl : List (List Nat)) (n m : Nonogram),
    cl.foldlM (colStepFn H) n = .ok m →
    n.rows = [] → n.unsolved = [] →
    (∀ c < n.cols.length,
      (getSeq n .col c).value.length = H ∧ (getSeq n .col c).length = H) →
    m.rows = [] ∧ m.unsolved = [] ∧ m.width = n.width ∧ m.height = n.height ∧
    m.cols.length = n.cols.length + cl.length ∧
    (∀ c < m.cols.length,
      (getSeq m .col c).value.length = H ∧ (getSeq m .col c).length = H) := by
  intro cl
  induction cl with
  | nil =>
      intro n m h hr hu hc
      injection h with h
      subst h
      exact ⟨hr, hu, rfl, rfl, rfl, hc⟩
  | cons a t ih =>
      intro n m h hr hu hc
      rw [List.foldlM_cons] at h
      cases hstep : colStepFn H n a with
      | error e =>
          rw [hstep, except_bind_error] at h
          exact absurd h (by simp)
      | ok n2 =>
          rw [hstep, except_bind_ok] at h
          obtain ⟨s, hs, hn2⟩ := colStepFn_ok hstep hr
          obtain ⟨hsv, hsl, -⟩ := mkSequence_ok hs
          obtain ⟨t1, t2, t3, t4, t5, -⟩ :=
            trackIf_fields { n with cols := n.cols ++ [s] } .col n.cols.length
              (getSeq { n with cols := n.cols ++ [s] } .col
                n.cols.length).solutions_possible
          have hn2r : n2.rows = [] := by
            rw [hn2, t1]
            exact hr
          have hn2u : n2.unsolved = [] := by
            rw [hn2, t5]
            exact hu
          have hn2w : n2.width = n.width := by
            rw [hn2, t3]
          have hn2h : n2.height = n.height := by
            rw [hn2, t4]
          have hn2cl : n2.cols.length = n.cols.length + 1 := by
            rw [hn2, t2]
            simp
          have hn2c : ∀ c < n2.cols.length,
              (getSeq n2 .col c).value.length = H ∧ (getSeq n2 .col c).length = H := by
            intro c hcb
            rw [hn2cl] at hcb
            have hgc : getSeq n2 .col c
                = getSeq { n with cols := n.cols ++ [s] } .col c := by
              apply getSeq_col_congr
              rw [hn2, t2]
            rw [hgc]
            show ((n.cols ++ [s]).getD c dummySeq).value.length = H ∧
              ((n.cols ++ [s]).getD c dummySeq).length = H
            by_cases hclt : c < n.cols.length
            · rw [getD_append_lt n.cols [s] c hclt]
              exact hc c hclt
            · have hceq : c = n.cols.length := by omega
              subst hceq
              rw [getD_append_self]
              exact ⟨hsv, hsl⟩
          obtain ⟨m1, m2, m3, m4, m5, m6⟩ := ih n2 m h hn2r hn2u hn2c
          refine ⟨m1, m2, by rw [m3, hn2w], by rw [m4, hn2h], ?_, m6⟩
          rw [m5, hn2cl]
          simp only [List.length_cons]
          omega

theorem rowStepFn_ok {W : Nat} {n : Nonogram} {a : List Nat} {m : Nonogram}
    (h : rowStepFn W n a = .ok m) :
    ∃ s, mkSequence a W n.max_solutions_to_find = .ok s ∧
      m = trackIf
          (reconcile_sequences { n with rows := n.rows ++ [s] } .row n.rows.length)
          .row n.rows.length
          (getSeq
            (reconcile_sequences { n with rows := n.rows ++ [s] } .row n.rows.length)
            .row n.rows.length).solutions_possible := by
  unfold rowStepFn at h
  cases hs : mkSequence a W n.max_solutions_to_find with
  | error e =>
      rw [hs, except_bind_error] at h
      exact absurd h (by simp)
  | ok s =>
      rw [hs, except_bind_ok] at h
      dsimp only at h
      injection h with h
      exact ⟨s, rfl, h.symm⟩

theorem mk_row_phase (W H : Nat) :
    ∀ (cl : List (List Nat)) (n m : Nonogram),
    cl.foldlM (rowStepFn W) n = .ok m →
    n.unsolved = [] →
    n.width = W → n.height = H →
    n.cols.length = W →
    n.rows.length + cl.length ≤ H →
    (∀ c < W, (getSeq n .col c).value.length = H ∧ (getSeq n .col c).length = H) →
    (∀ r < n.rows.length,
      (getSeq n .row r).value.length = W ∧ (getSeq n .row r).length = W) →
    (∀ r < n.rows.length, ∀ c < W, rowVal n r c = colVal n c r) →
    m.unsolved = [] ∧ m.width = W ∧ m.height = H ∧ m.cols.length = W ∧
    m.rows.length = n.rows.length + cl.length ∧
    (∀ c < W, (getSeq m .col c).value.length = H ∧ (getSeq m .col c).length = H) ∧
    (∀ r < m.rows.length,
      (getSeq m .row r).value.length = W ∧ (getSeq m .row r).length = W) ∧
    (∀ r < m.rows.length, ∀ c < W, rowVal m r c = colVal m c r) := by
  intro cl
  induction cl with
  | nil =>
      intro n m h hu hw hh hcl hcnt hc hrw hag
      injection h with h
      subst h
      exact ⟨hu, hw, hh, hcl, rfl, hc, hrw, hag⟩
  | cons a t ih =>
      intro n m h hu hw hh hcl hcnt hc hrw hag
      simp only [List.length_cons] at hcnt
      rw [List.foldlM_cons] at h
      cases hstep : rowStepFn W n a with
      | error e =>
          rw [hstep, except_bind_error] at h
          exact absurd h (by simp)
      | ok n2 =>
          rw [hstep, except_bind_ok] at h
          obtain ⟨s, hs, hn2⟩ := rowStepFn_ok hstep
          obtain ⟨hsv, hsl, -⟩ := mkSequence_ok hs
          have hkH : n.rows.length < H := by omega
          -- facts about the appended board
          have hB1row : ∀ r, r < n.rows.length →
              getSeq { n with rows := n.rows ++ [s] } .row r = getSeq n .row r := by
            intro r hr
            show (n.rows ++ [s]).getD r dummySeq = n.rows.getD r dummySeq
            exact getD_append_lt n.rows [s] r hr dummySeq
          have hB1k : getSeq { n with rows := n.rows ++ [s] } .row n.rows.length = s := by
            show (n.rows ++ [s]).getD n.rows.length dummySeq = s
            exact getD_append_self n.rows s dummySeq
          have hB1col : ∀ c,
              getSeq { n with rows := n.rows ++ [s] } .col c = getSeq n .col c :=
            fun c => rfl
          have hB1rl : ({ n with rows := n.rows ++ [s] } : Nonogram).rows.length
              = n.rows.length + 1 := by
            simp
          -- the reconcile pass on the new row
          obtain ⟨c1, c2, c3, c4, c5, c6, c7, c8, c9, c10, c11, c12⟩ :=
            rec_row_fold n.rows.length
              (getSeq { n with rows := n.rows ++ [s] } .row n.rows.length).value 0
              { n with rows := n.rows ++ [s] }
              hu
              (by rw [hB1rl]; omega)
              (fun tt htt => by
                rw [Nat.zero_add, hB1col tt]
                rw [hB1k, hsv] at htt
                rw [(hc tt htt).1]
                exact hkH)
              (fun tt htt => by rw [Nat.zero_add])
              (by rw [Nat.zero_add, hB1k, hsv]
                  show W ≤ n.cols.length
                  omega)
              (by rw [Nat.zero_add])
              (reconcile_sequences { n with rows := n.rows ++ [s] } .row n.rows.length)
              (reconcile_row_eq { n with rows := n.rows ++ [s] } n.rows.length)
          obtain ⟨t1, t2, t3, t4, t5, -⟩ :=
            trackIf_fields
              (reconcile_sequences { n with rows := n.rows ++ [s] } .row n.rows.length)
              .row n.rows.length
              (getSeq
                (reconcile_sequences { n with rows := n.rows ++ [s] } .row
                  n.rows.length) .row n.rows.length).solutions_possible
          have hwlen : (getSeq { n with rows := n.rows ++ [s] } .row
              n.rows.length).value.length = W := by
            rw [hB1k, hsv]
          have hn2get : ∀ lt i, getSeq n2 lt i
              = getSeq (reconcile_sequences { n with rows := n.rows ++ [s] } .row
                  n.rows.length) lt i := by
            intro lt i
            rw [hn2]
            cases lt
            · exact getSeq_row_congr _ _ t1 i
            · exact getSeq_col_congr _ _ t2 i
          have hn2u : n2.unsolved = [] := by
            rw [hn2, t5]
            exact c1
          have hn2w : n2.width = W := by
            rw [hn2, t3, c2]
            exact hw
          have hn2h : n2.height = H := by
            rw [hn2, t4, c3]
            exact hh
          have hn2cl : n2.cols.length = W := by
            rw [hn2]
            show (trackIf _ .row n.rows.length _).cols.length = W
            rw [t2, c5]
            exact hcl
          have hn2rl : n2.rows.length = n.rows.length + 1 := by
            rw [hn2]
            show (trackIf _ .row n.rows.length _).rows.length = n.rows.length + 1
            rw [t1, c4, hB1rl]
          have hn2c : ∀ c < W,
              (getSeq n2 .col c).value.length = H ∧ (getSeq n2 .col c).length = H := by
            intro c hcb
            rw [hn2get]
            have h12 := c12 c (by rw [hwlen]; exact hcb)
            rw [Nat.zero_add] at h12
            rw [h12]
            by_cases hcond : (getSeq { n with rows := n.rows ++ [s] } .row
                  n.rows.length).value.getD c 'x' ≠ 'x' ∧
                (getSeq { n with rows := n.rows ++ [s] } .row
                  n.rows.length).value.getD c 'x'
                  ≠ (getSeq { n with rows := n.rows ++ [s] } .col c).value.getD
                      n.rows.length 'x'
            · rw [if_pos hcond]
              refine ⟨?_, ?_⟩
              · show (strSet (getSeq { n with rows := n.rows ++ [s] } .col c).value
                    n.rows.length _).length = H
                rw [strSet_length _ _ _ (by
                  rw [hB1col c, (hc c hcb).1]
                  exact hkH)]
                rw [hB1col c]
                exact (hc c hcb).1
              · show (getSeq { n with rows := n.rows ++ [s] } .col c).length = H
                rw [hB1col c]
                exact (hc c hcb).2
            · rw [if_neg hcond, hB1col c]
              exact hc c hcb
          have hn2r : ∀ r < n2.rows.length,
              (getSeq n2 .row r).value.length = W ∧ (getSeq n2 .row r).length = W := by
            intro r hrb
            rw [hn2rl] at hrb
            rw [hn2get]
            by_cases hreq : r = n.rows.length
            · subst hreq
              refine ⟨by rw [c8, hwlen], by rw [c7, hB1k, hsl]⟩
            · rw [c6 r hreq, hB1row r (by omega)]
              exact hrw r (by omega)
          have hn2ag : ∀ r < n2.rows.length, ∀ c < W, rowVal n2 r c = colVal n2 c r := by
            intro r hrb c hcb
            rw [hn2rl] at hrb
            have hrv2 : rowVal n2 r c
                = rowVal (reconcile_sequences { n with rows := n.rows ++ [s] } .row
                    n.rows.length) r c := by
              rw [rowVal, rowVal, hn2get]
            have hcv2 : colVal n2 c r
                = colVal (reconcile_sequences { n with rows := n.rows ++ [s] } .row
                    n.rows.length) c r := by
              rw [colVal, colVal, hn2get]
            rw [hrv2, hcv2]
            have h12 := c12 c (by rw [hwlen]; exact hcb)
            rw [Nat.zero_add] at h12
            have hcbH : n.rows.length < (getSeq { n with rows := n.rows ++ [s] }
                .col c).value.length := by
              rw [hB1col c, (hc c hcb).1]
              exact hkH
            by_cases hreq : r = n.rows.length
            · subst hreq
              have h10 := c10 c (by rw [hwlen]; exact hcb)
              rw [Nat.zero_add] at h10
              rw [rowVal, h10, colVal, h12]
              by_cases hx : (getSeq { n with rows := n.rows ++ [s] } .row
                  n.rows.length).value.getD c 'x' ≠ 'x'
              · rw [if_pos hx]
                by_cases hne : (getSeq { n with rows := n.rows ++ [s] } .row
                    n.rows.length).value.getD c 'x'
                    ≠ (getSeq { n with rows := n.rows ++ [s] } .col c).value.getD
                        n.rows.length 'x'
                · rw [if_pos ⟨hx, hne⟩]
                  show _ = (strSet (getSeq { n with rows := n.rows ++ [s] }
                    .col c).value n.rows.length _).getD n.rows.length 'x'
                  rw [strSet_getD_eq _ _ _ hcbH]
                · rw [if_neg (by intro hand; exact hne hand.2)]
                  push_neg at hne
                  exact hne
              · rw [if_neg hx]
                rw [if_neg (by intro hand; exact hx hand.1)]
            · rw [rowVal, c6 r hreq, colVal, h12]
              by_cases hcond : (getSeq { n with rows := n.rows ++ [s] } .row
                    n.rows.length).value.getD c 'x' ≠ 'x' ∧
                  (getSeq { n with rows := n.rows ++ [s] } .row
                    n.rows.length).value.getD c 'x'
                    ≠ (getSeq { n with rows := n.rows ++ [s] } .col c).value.getD
                        n.rows.length 'x'
              · rw [if_pos hcond]
                show _ = (strSet (getSeq { n with rows := n.rows ++ [s] }
                  .col c).value n.rows.length _).getD r 'x'
                rw [strSet_getD_ne _ _ _ hcbH r hreq]
                rw [hB1row r (by omega), hB1col c]
                exact hag r (by omega) c hcb
              · rw [if_neg hcond]
                rw [hB1row r (by omega), hB1col c]
                exact hag r (by omega) c hcb
          obtain ⟨m1, m2, m3, m4, m5, m6, m7, m8⟩ :=
            ih n2 m h hn2u hn2w hn2h hn2cl (by omega) hn2c hn2r hn2ag
          refine ⟨m1, m2, m3, m4, ?_, m6, m7, m8⟩
          rw [m5, hn2rl]
          simp only [List.length_cons]
          omega

theorem mkNonogram_inv (σ : Shuffle) (clues : List (List Nat) × List (List Nat))
    (n : Nonogram) (h : mkNonogram σ clues = .ok n) : BoardInv n := by
  rw [mkNonogram_eq] at h
  cases h1 : clues.1.foldlM (colStepFn clues.2.length)
      (⟨50, clues.1.length, clues.2.length, [], [], [], []⟩ : Nonogram) with
  | error e =>
      rw [h1] at h
      exact absurd h (by simp [Except.bind])
  | ok n1 =>
      rw [h1] at h
      rw [show (Except.ok n1).bind (fun n1 =>
          (clues.2.foldlM (rowStepFn clues.1.length) n1).bind (fun n2 =>
            Except.ok (update_known_solution_sets σ
              { n2 with unsolved := get_unsolved n2 })))
        = (clues.2.foldlM (rowStepFn clues.1.length) n1).bind (fun n2 =>
            Except.ok (update_known_solution_sets σ
              { n2 with unsolved := get_unsolved n2 })) from rfl] at h
      cases h2 : clues.2.foldlM (rowStepFn clues.1.length) n1 with
      | error e =>
          rw [h2] at h
          exact absurd h (by simp [Except.bind])
      | ok n2 =>
          rw [h2] at h
          rw [show ((Except.ok n2 : Except Err Nonogram).bind (fun n2 =>
              Except.ok (update_known_solution_sets σ
                { n2 with unsolved := get_unsolved n2 })))
            = Except.ok (update_known_solution_sets σ
                { n2 with unsolved := get_unsolved n2 }) from rfl] at h
          injection h with h
          rw [← h]
          obtain ⟨p1, p2, p3, p4, p5, p6⟩ :=
            mk_col_phase clues.2.length clues.1 _ n1 h1 rfl rfl
              (by intro c hc; simp at hc)
          have hW : n1.cols.length = clues.1.length := by
            rw [p5]
            simp
          have hrl0 : n1.rows.length = 0 := by
            rw [p1]
            rfl
          obtain ⟨q1, q2, q3, q4, q5, q6, q7, q8⟩ :=
            mk_row_phase clues.1.length clues.2.length clues.2 n1 n2 h2
              p2 (by rw [p3]) (by rw [p4]) hW (by rw [hrl0]; omega)
              (by
                intro c hc
                rw [← hW] at hc
                exact p6 c hc)
              (by
                intro r hr
                rw [hrl0] at hr
                exact absurd hr (by omega))
              (by
                intro r hr
                rw [hrl0] at hr
                exact absurd hr (by omega))
          have hn2rl : n2.rows.length = clues.2.length := by
            rw [q5, hrl0]
            omega
          apply update_kss_boardinv
          have hget : ∀ lt i, getSeq { n2 with unsolved := get_unsolved n2 } lt i
              = getSeq n2 lt i := by
            intro lt i
            cases lt
            · rfl
            · rfl
          refine ⟨⟨?_, ?_, ?_, ?_⟩, ?_, ⟨?_, ?_⟩, ?_⟩
          · show n2.rows.length = n2.height
            rw [hn2rl, q3]
          · show n2.cols.length = n2.width
            rw [q4, q2]
          · intro r hr
            show (getSeq n2 .row r).value.length = n2.width ∧
              (getSeq n2 .row r).length = n2.width
            have hrH : r < n2.height := hr
            rw [q3] at hrH
            have hr2 : r < n2.rows.length := by
              rw [hn2rl]
              exact hrH
            rw [q2]
            exact q7 r hr2
          · intro c hc
            show (getSeq n2 .col c).value.length = n2.height ∧
              (getSeq n2 .col c).length = n2.height
            have hcW : c < n2.width := hc
            rw [q2] at hcW
            rw [q3]
            exact q6 c hcW
          · intro r hr c hc
            show rowVal n2 r c = colVal n2 c r
            have hrH : r < n2.height := hr
            rw [q3] at hrH
            have hcW : c < n2.width := hc
            rw [q2] at hcW
            apply q8
            · rw [hn2rl]
              exact hrH
            · exact hcW
          · intro p hp
            have hp2 : p ∈ get_unsolved n2 := hp
            rw [mem_get_unsolved] at hp2
            obtain ⟨g1, g2, g3⟩ := hp2
            refine ⟨?_, ?_, ?_⟩
            · show p.1 < n2.height
              rw [q3, ← hn2rl]
              exact g1
            · show p.2 < n2.width
              rw [q2]
              have hvl := (q7 p.1 g1).1
              rw [hvl] at g2
              exact g2
            · exact g3
          · intro r hr c hc hx
            show (r, c) ∈ get_unsolved n2
            rw [mem_get_unsolved]
            have hrH : r < n2.height := hr
            rw [q3] at hrH
            have hcW : c < n2.width := hc
            rw [q2] at hcW
            have hr2 : r < n2.rows.length := by
              rw [hn2rl]
              exact hrH
            refine ⟨hr2, ?_, ?_⟩
            · rw [(q7 r hr2).1]
              exact hcW
            · exact hx
          · show (get_unsolved n2).Nodup
            exact get_unsolved_nodup n2

theorem update_single_sequence_inv (n : Nonogram) (lt : LineType) (idx : Nat)
    (newValue : List Char) (hI : BoardInv n) (hidx : idx < lineCount n lt)
    (hnv : newValue.length = lineLen n lt) :
    BoardInv (update_single_sequence n lt idx newValue) := by
  cases lt
  · exact uss_inv_row n idx newValue hI hidx hnv
  · exact uss_inv_col n idx newValue hI hidx hnv

/-- C4: the board operations the Solver uses keep the row view and the
column view of every cell equal, and keep `unsolved` equal to the set of
Unknown coordinates: `update_at_pos` with no ignored side, the
`update_sequences` fast path (whose new values are single-cell rewrites of
the current lines, as `check_regex` produces), `update_single_sequence`
with a value of the line length, all preserve the invariant, and
construction (`Nonogram.__init__` with its reconcile passes) establishes
it. -/
theorem board_ops_preserve_invariant :
    (∀ (n : Nonogram) (pos : Nat × Nat) (v : Char), BoardInv n →
      pos.1 < n.height → pos.2 < n.width →
      BoardInv (update_at_pos n pos v none)) ∧
    (∀ (n : Nonogram) (pos : Nat × Nat) (ch : Char) (newRow newCol : List Char),
      BoardInv n → pos.1 < n.height → pos.2 < n.width →
      newRow = strSet (getSeq n .row pos.1).value pos.2 ch →
      newCol = strSet (getSeq n .col pos.2).value pos.1 ch →
      BoardInv (update_sequences n pos newRow newCol)) ∧
    (∀ (n : Nonogram) (lt : LineType) (idx : Nat) (newValue : List Char),
      BoardInv n → idx < lineCount n lt → newValue.length = lineLen n lt →
      BoardInv (update_single_sequence n lt idx newValue)) ∧
    (∀ (σ : Shuffle) (clues : List (List Nat) × List (List Nat)) (n : Nonogram),
      mkNonogram σ clues = .ok n → BoardInv n) :=
  ⟨fun n pos v hI h1 h2 => update_at_pos_inv n pos v hI h1 h2,
   fun n pos ch nr nc hI h1 h2 hr hc => update_sequences_inv n pos ch nr nc hI h1 h2 hr hc,
   fun n lt idx nv hI hidx hnv => update_single_sequence_inv n lt idx nv hI hidx hnv,
   fun σ clues n h => mkNonogram_inv σ clues n h⟩

def boardInvWitnessNono : Nonogram :=
  ⟨50, 1, 1, [⟨1, [], ['x'], 1, some [['0']]⟩], [⟨1, [], ['x'], 1, some [['0']]⟩],
   [], [(0, 0)]⟩

theorem board_ops_preserve_invariant_witness :
    BoardInv (update_at_pos boardInvWitnessNono (0, 0) '1' none) :=
  board_ops_preserve_invariant.1 boardInvWitnessNono (0, 0) '1'
    (by
      unfold BoardInv WellShaped Agrees UnsolvedSync rowVal colVal
      refine ⟨⟨rfl, rfl, by decide, by decide⟩, by decide, ⟨by decide, ?_⟩, by decide⟩
      intro r hr c hc hx
      have hr1 : r < 1 := hr
      have hc1 : c < 1 := hc
      have hr0 : r = 0 := by omega
      have hc0 : c = 0 := by omega
      subst hr0
      subst hc0
      exact List.mem_singleton.mpr rfl)
    (by decide) (by decide)

/-! ### Ground truth for satisfiability, and set-order models (C2, C5, C7) -/

/-- One step of reading off the '1'-runs of a line. -/
def runLengthsAux (acc : Nat × List Nat) (c : Char) : Nat × List Nat :=
  if c = '1' then (acc.1 + 1, acc.2)
  else (0, if acc.1 = 0 then acc.2 else acc.2 ++ [acc.1])

/-- The lengths of the maximal '1'-blocks of a line: the ground-truth
reading of a nonogram clue. -/
def runLengths (l : List Char) : List Nat :=
  let acc := l.foldl runLengthsAux (0, [])
  if acc.1 = 0 then acc.2 else acc.2 ++ [acc.1]

def transposeGrid (g : List (List Char)) (w : Nat) : List (List Char) :=
  (List.range w).map (fun c => g.map (fun row => row.getD c 'x'))

/-- A grid satisfies the clue set: right dimensions, every row's filled
runs read its row clue and every column's its column clue (`clues.1` holds
the column clues, `clues.2` the row clues, as in the source). -/
def satisfiesClues (clues : List (List Nat) × List (List Nat))
    (g : List (List Char)) : Bool :=
  decide (g.length = clues.2.length) &&
  g.all (fun row => decide (row.length = clues.1.length)) &&
  ((g.zip clues.2).all (fun p => runLengths p.1 == p.2)) &&
  (((transposeGrid g clues.1.length).zip clues.1).all
    (fun p => runLengths p.1 == p.2))

/-- A lexicographic string order: one concrete possibility for the
process-randomized `set` iteration order of CPython. -/
def lexLt (a b : List Char) : Bool :=
  match a, b with
  | [], [] => false
  | [], _ => true
  | _, [] => false
  | x :: xs, y :: ys => x < y || (x == y && lexLt xs ys)

def lexInsert (x : List Char) : List (List Char) → List (List Char)
  | [] => [x]
  | y :: ys => if lexLt y x then y :: lexInsert x ys else x :: y :: ys

def lexSort (l : List (List Char)) : List (List Char) :=
  l.foldl (fun acc x => lexInsert x acc) []

def guessValue : Guess → Option (List Char)
  | .seqG _ _ nv _ _ => some nv
  | .cell _ _ => none

theorem unsat_2x2 : ∀ g : List (List Char),
    satisfiesClues ([[2], [1]], [[2], [2]]) g = false := by
  intro g
  rcases g with _ | ⟨r1, g⟩
  · rfl
  rcases g with _ | ⟨r2, g⟩
  · rfl
  rcases g with _ | ⟨r3, g⟩
  case cons.cons.cons =>
    simp [satisfiesClues]
  rcases r1 with _ | ⟨a, r1⟩
  · simp [satisfiesClues]
  rcases r1 with _ | ⟨b, r1⟩
  · simp [satisfiesClues]
  rcases r1 with _ | ⟨e1, r1⟩
  case cons.cons =>
    simp [satisfiesClues]
  rcases r2 with _ | ⟨c, r2⟩
  · simp [satisfiesClues]
  rcases r2 with _ | ⟨d, r2⟩
  · simp [satisfiesClues]
  rcases r2 with _ | ⟨e2, r2⟩
  case cons.cons =>
    simp [satisfiesClues]
  by_cases ha : a = '1' <;> by_cases hb : b = '1' <;>
    by_cases hc : c = '1' <;> by_cases hd : d = '1' <;>
    (simp [satisfiesClues, runLengths, runLengthsAux, transposeGrid,
      ha, hb, hc, hd] <;> exact ⟨['1', '1'], [1], by decide, by decide⟩)

/-- C2: counterexample — the clue set with column clues `(2,),(1,)` and row
clues `(2,),(2,)` (each fitting its line) admits no satisfying assignment,
yet `solve` returns the grid `11/11` instead of raising `UnsolvableError`:
construction-time reconciliation silently overwrites a known column cell,
the unsolved set empties, and the grid is returned with no validation; the
returned grid itself violates the second column's clue. -/
theorem solve_returns_grid_on_unsolvable :
    (∀ g : List (List Char), satisfiesClues ([[2], [1]], [[2], [2]]) g = false) ∧
    solve id ([[2], [1]], [[2], [2]]) 30
      = some (Except.ok [['1', '1'], ['1', '1']]) ∧
    runLengths ['1', '1'] ≠ [1] :=
  ⟨unsat_2x2, rfl, by decide⟩

/-- C7: counterexample — `solve` is not a function of the clue input
alone: with the in-process insertion order (`id`) and with a
lexicographic hash order (`lexSort`) for `list(set(..) - ..)`, the same
clue input (rows and columns all `(1,)` on a 2-by-2 board) yields two
different grids, so two runs of the same program text can disagree. -/
theorem solve_depends_on_set_order :
    solve id ([[1], [1]], [[1], [1]]) 30
      = some (Except.ok [['1', '0'], ['0', '1']]) ∧
    solve lexSort ([[1], [1]], [[1], [1]]) 30
      = some (Except.ok [['0', '1'], ['1', '0']]) ∧
    ([['1', '0'], ['0', '1']] : List (List Char)) ≠ [['0', '1'], ['1', '0']] :=
  ⟨rfl, rfl, by decide⟩

/-- C5: counterexample — the committed line guess is `solutions[0]` of the
stored hash-ordered list, not the first completion in the enumeration
order of `get_possible_solutions`: the enumeration order for clue `(1,)`
on length 2 starts with `10`, yet under the `lexSort` set order the first
line guess commits `01`. -/
theorem guess_sequence_not_enumeration_order :
    get_possible_solutions [1] 2 [] = [['1', '0'], ['0', '1']] ∧
    (mkNonogram lexSort ([[1], [1]], [[1], [1]])).bind
        (fun n => (get_next_guess lexSort n [] false).map
          (fun p => p.2.map guessValue))
      = Except.ok [some ['0', '1']] ∧
    some (['0', '1'] : List Char) ≠ some ['1', '0'] :=
  ⟨rfl, rfl, by decide⟩
